import Mathlib

/-!
Verification of the Agent K backend (`server.js`): a shallow embedding of the
retrieval, scoring, routing and text-processing functions of the server,
together with theorems settling the specification claims.

JavaScript strings are modelled as `List Char` (ASCII fragment; the knowledge
base and the queries the server processes are ASCII). JavaScript numbers used
by the scoring code are modelled as `ℚ` (the lexical scores are integers, and
the fused scores are finite decimal combinations, so no rounding behaviour is
lost on the inputs the claims quantify over).
-/

namespace AgentK

/-- JS strings, modelled as lists of characters. -/
abbrev Str := List Char

/-- Convert a Lean string literal to the `Str` model. -/
def str (s : String) : Str := s.data

/-- The case table behind `toLowerCase()` on the ASCII fragment: each
upper-case letter paired with its lower-case form. -/
def lowerTable : List (Char × Char) :=
  [('A', 'a'), ('B', 'b'), ('C', 'c'), ('D', 'd'), ('E', 'e'), ('F', 'f'),
   ('G', 'g'), ('H', 'h'), ('I', 'i'), ('J', 'j'), ('K', 'k'), ('L', 'l'),
   ('M', 'm'), ('N', 'n'), ('O', 'o'), ('P', 'p'), ('Q', 'q'), ('R', 'r'),
   ('S', 's'), ('T', 't'), ('U', 'u'), ('V', 'v'), ('W', 'w'), ('X', 'x'),
   ('Y', 'y'), ('Z', 'z')]

/-- `toLowerCase()` on a single character (ASCII model). -/
def lowerChar (c : Char) : Char :=
  match lowerTable.find? (fun p => p.1 == c) with
  | some p => p.2
  | none => c

/-- `toLowerCase()` on a string. -/
def jsLower (s : Str) : Str := s.map lowerChar

/-- The whitespace class of JS regular expressions (`\s`), ASCII fragment. -/
def jsWs (c : Char) : Bool :=
  c == ' ' || c == '\t' || c == '\n' || c == '\r' || c == '\x0b' || c == '\x0c'

/-- `String.prototype.trim()`: strip leading and trailing whitespace
(`List.rdropWhile p l` is `(l.reverse.dropWhile p).reverse`). -/
def jsTrim (s : Str) : Str :=
  List.rdropWhile jsWs (s.dropWhile jsWs)

/-- The word-character class of JS regular expressions (`\w`). -/
def isWordChar (c : Char) : Bool := c.isAlphanum || c == '_'

/-- Split a list at every element satisfying `p` (separators dropped, empty
pieces kept), the model of `String.prototype.split` with a single-character
separator class.  JS `split` with a `+`-quantified class collapses runs of
separators; all uses below filter the pieces by a positive length bound, so
the empty pieces produced here make no difference. -/
def splitPB (p : Char → Bool) (l : Str) : List Str :=
  l.foldr
    (fun c acc =>
      if p c then [] :: acc
      else
        match acc with
        | [] => [[c]]
        | a :: as => (c :: a) :: as)
    [[]]

/-- `a.includes(b)` receiver-last: `startsWithB pat s` holds when `pat` is a
prefix of `s`. -/
def startsWithB : Str → Str → Bool
  | [], _ => true
  | _ :: _, [] => false
  | p :: ps, c :: cs => p == c && startsWithB ps cs

/-- `s.includes(pat)`: `pat` occurs as a contiguous substring of `s`. -/
def containsSub : Str → Str → Bool
  | pat, [] => pat == []
  | pat, c :: cs => startsWithB pat (c :: cs) || containsSub pat cs

/-! ### Knowledge base and lexical scorer (`keywordScoreAll`, server.js 384–409) -/

/-- One entry of `knowledge-base.json` (`qaDatabase`).  A missing `keywords`
field is modelled as the empty list (the source guards every access with
`?.` / `|| []`). -/
structure QA where
  question : Str
  answer : Str
  keywords : List Str
deriving DecidableEq

/-- A knowledge-base entry together with the score and positional index
attached by the scoring code (`{ ...qa, score, index }`). -/
structure ScoredQA where
  qa : QA
  score : ℚ
  index : ℕ
deriving DecidableEq

/-- The body of the `map` in `keywordScoreAll`: the lexical score of one
entry.  `q` is the lower-cased, trimmed query prepared by the caller.  The
score starts at 0, adds 25 on a keyword hit, 10 on a question-head hit
(guarded by the question having at least 20 characters) and 3 per matching
query token, in source order. -/
def keywordScore (q : Str) (qa : QA) : ℕ :=
  let s1 := if qa.keywords.any (fun k => containsSub (jsLower k) q) then 0 + 25 else 0
  let s2 :=
    if qa.question ≠ [] ∧ 20 ≤ qa.question.length ∧
        containsSub ((jsLower qa.question).take 20) q = true
    then s1 + 10 else s1
  ((splitPB jsWs q).filter (fun w => 2 < w.length)).foldl
    (fun s w =>
      if containsSub w (jsLower qa.question) || containsSub w (jsLower qa.answer) ||
          qa.keywords.any (fun k => containsSub w (jsLower k))
      then s + 3 else s)
    s2

/-- `keywordScoreAll(query)`: lower-case and trim the query, return the empty
list if it is blank, otherwise score every knowledge-base entry (keeping the
knowledge-base order and recording each entry's index). -/
def keywordScoreAll (kb : List QA) (query : Str) : List ScoredQA :=
  let q := jsTrim (jsLower query)
  if q = [] then []
  else kb.enum.map (fun p => ⟨p.2, (keywordScore q p.2 : ℚ), p.1⟩)

/-- The comparator `(a, b) => b.score - a.score` used by the retrieval code:
sorting is by descending score, and the JS engine's sort being stable, ties
keep their knowledge-base order.  `List.insertionSort` with this relation is
exactly that stable descending sort. -/
def sortByScoreDesc (l : List ScoredQA) : List ScoredQA :=
  l.insertionSort (fun a b => b.score ≤ a.score)

/-! ### Hybrid search (`hybridSearchKnowledgeBase`, server.js 412–480) -/

/-- `hybridSearchKnowledgeBase(query, limit)`.  The semantic side is
parameterised by `sem`: `none` models every degraded situation in which no
query embedding is available (embeddings disabled for the process, no stored
entry embeddings, or the per-query embedding call failing or returning
nothing); `some sims` models a successful embedding call, `sims i` being
`cosineSimilarity(queryEmbedding, kbEmbeddings[i].embedding)` for entry `i`
(the startup code stores one embedding per knowledge-base entry).  The
`embeddingScores` map of the source stores only positive similarities and
reads absent keys as 0 (`embeddingScores.get(idx) || 0`), which is the inner
conditional below; the conditional push into `combined` is written as
`filter`. -/
def hybridSearchKB (kb : List QA) (query : Str) (limit : ℕ) (sem : Option (ℕ → ℚ)) :
    List ScoredQA :=
  let q := jsTrim (jsLower query)
  if q = [] ∨ kb = [] then []
  else
    let scoredFull := keywordScoreAll kb q
    let maxKw : ℚ := scoredFull.foldl (fun m it => max m it.score) 0
    match sem with
    | none =>
        ((scoredFull.filter (fun it => 0 < it.score)) |> sortByScoreDesc).take limit
    | some sims =>
        let combined :=
          (scoredFull.map (fun it =>
            let kwNorm : ℚ := if 0 < maxKw then it.score / maxKw else 0
            let embSim : ℚ := if 0 < sims it.index then sims it.index else 0
            { it with score := 35 / 100 * kwNorm + 65 / 100 * embSim })).filter
            (fun it => 0 < it.score)
        (sortByScoreDesc combined).take limit

/-- The lexical-only ranking in the words of the specification: entries with
lexical score `> 0`, sorted by descending score, truncated to the limit. -/
def lexicalOnlyRanking (kb : List QA) (query : Str) (limit : ℕ) : List ScoredQA :=
  (sortByScoreDesc ((keywordScoreAll kb query).filter (fun it => 0 < it.score))).take limit

/-- The maximal lexical score of this request, as computed by the source
(`reduce((max, item) => Math.max(max, item.score), 0)`). -/
def maxLexScore (kb : List QA) (query : Str) : ℚ :=
  (keywordScoreAll kb query).foldl (fun m it => max m it.score) 0

/-- Score fusion written from the words of claim C2: every entry gets
`0.35 * (lexicalScore / maxLexicalScore) + 0.65 * cosine`, entries with
combined score `≤ 0` are dropped, the rest are sorted descending and
truncated. -/
def fuseSpecClaim (kb : List QA) (query : Str) (limit : ℕ) (sims : ℕ → ℚ) :
    List ScoredQA :=
  let scoredFull := keywordScoreAll kb query
  let maxKw := maxLexScore kb query
  (sortByScoreDesc
    ((scoredFull.map (fun it =>
      { it with score := 35 / 100 * (it.score / maxKw) + 65 / 100 * sims it.index })).filter
      (fun it => 0 < it.score))).take limit

/-- Score fusion as the code actually computes it (claim C2 amended): the
semantic term is the cosine similarity clamped at zero,
`0.35 * (lexicalScore / maxLexicalScore) + 0.65 * max(cosine, 0)`. -/
def fuseSpecAmended (kb : List QA) (query : Str) (limit : ℕ) (sims : ℕ → ℚ) :
    List ScoredQA :=
  let scoredFull := keywordScoreAll kb query
  let maxKw := maxLexScore kb query
  (sortByScoreDesc
    ((scoredFull.map (fun it =>
      { it with score :=
          35 / 100 * (it.score / maxKw) + 65 / 100 * max (sims it.index) 0 })).filter
      (fun it => 0 < it.score))).take limit

/-- A one-entry knowledge base used in concrete counterexamples for fusion. -/
def kbFuse : List QA := [⟨str "q1", str "a1", [str "foo"]⟩]

/-! ### Claim C5: the closed form of the lexical score -/

/-- The lexical score as written in claim C5:
`25·[keyword hit] + 10·[first 20 characters of the question occur in the
query] + 3·(matching tokens)`, with no length guard on the question. -/
def lexicalScoreClaim (query : Str) (qa : QA) : ℕ :=
  let q := jsTrim (jsLower query)
  25 * (if qa.keywords.any (fun k => containsSub (jsLower k) q) then 1 else 0) +
  10 * (if containsSub ((jsLower qa.question).take 20) q = true then 1 else 0) +
  3 * (((splitPB jsWs q).filter (fun w => 2 < w.length)).countP
        (fun w => containsSub w (jsLower qa.question) || containsSub w (jsLower qa.answer) ||
          qa.keywords.any (fun k => containsSub w (jsLower k))))

/-- The lexical score in closed form as the code computes it (claim C5
amended): the question-head bonus additionally requires the question to be
at least 20 characters long. -/
def lexicalScoreAmended (query : Str) (qa : QA) : ℕ :=
  let q := jsTrim (jsLower query)
  25 * (if qa.keywords.any (fun k => containsSub (jsLower k) q) then 1 else 0) +
  10 * (if qa.question ≠ [] ∧ 20 ≤ qa.question.length ∧
          containsSub ((jsLower qa.question).take 20) q = true then 1 else 0) +
  3 * (((splitPB jsWs q).filter (fun w => 2 < w.length)).countP
        (fun w => containsSub w (jsLower qa.question) || containsSub w (jsLower qa.answer) ||
          qa.keywords.any (fun k => containsSub w (jsLower k))))

/-- The entry used in the counterexample to claim C5. -/
def qaShort : QA := ⟨str "ab", str "zz", []⟩

/-! ### Claim C1: strong direct knowledge-base hit (server.js 1035–1077) -/

/-- What the retrieval stage does with the query: respond with the JSON body
`{answer: sanitizeOutput(entryAnswer)}` built from a knowledge-base entry's
stored answer (carried here as the full post-processed response text), or
fall through to the generation call. -/
inductive RetrievalOutcome
  | answered (response : Str)
  | generate
deriving DecidableEq

/-- `STRONG_THRESHOLD` of server.js (0.9): a fused — or, in lexical-only
mode, raw lexical — top score at or above it triggers the direct
knowledge-base answer. -/
def STRONG_THRESHOLD : ℚ := 9 / 10

instance : IsTotal ScoredQA (fun a b => b.score ≤ a.score) :=
  ⟨fun a b => le_total b.score a.score⟩

instance : IsTrans ScoredQA (fun a b => b.score ≤ a.score) :=
  ⟨fun _ _ _ hab hbc => le_trans hbc hab⟩

/-- The one-entry knowledge base whose question is shorter than 20
characters and yields no query token longer than 2 characters. -/
def kbShortQ : List QA := [⟨str "ab cd", str "ANSWER", []⟩]

/-- A one-entry knowledge base with a long question, used as the witness
input for the amended claim C1. -/
def kbLongQ : List QA := [⟨str "what is agent k about today", str "It is a demo.", []⟩]

/-! ### Claim C3: anti-repetition guard (server.js 249–271, 1295–1324) -/

/-- `textSimilarity(a, b)`: Jaccard similarity over the sets of distinct
tokens longer than 3 characters (tokens split on `\W+` after
lower-casing).  JS `Set`s preserve only distinctness, so the counts below
use `dedup`. -/
def textSimilarity (a b : Str) : ℚ :=
  if a = [] ∨ b = [] then 0
  else
    let tokensA := (splitPB (fun c => !(isWordChar c)) (jsLower a)).filter
      (fun t => 3 < t.length)
    let tokensB := (splitPB (fun c => !(isWordChar c)) (jsLower b)).filter
      (fun t => 3 < t.length)
    if tokensA = [] ∨ tokensB = [] then 0
    else
      let setA := tokensA.dedup
      let setB := tokensB.dedup
      let inter := setA.countP (fun t => setB.contains t)
      let unionSize := (setA ++ setB).dedup.length
      if unionSize = 0 then 0 else (inter : ℚ) / (unionSize : ℚ)

/-- `isHighlySimilarAnswer(prev, next)` with the default threshold 0.8. -/
def isHighlySimilarAnswer (prev next : Str) : Bool :=
  4 / 5 ≤ textSimilarity prev next

/-- The fallback answer used when the model returns nothing, technical
intent. -/
def fallbackTechnical : Str :=
  str "Agent K did not receive a clear response from the model. Can you try rephrasing the technical question?"

/-- The fallback answer used when the model returns nothing, Kyle/mixed
intent. -/
def fallbackGeneral : Str :=
  str "Agent K did not receive a clear response from the model. Can you try rephrasing the question?"

/-- The answer text finally chosen for the main reply, together with the
number of generation calls made for it. -/
structure GenOutcome where
  answer : Str
  genCalls : ℕ
deriving DecidableEq

/-- The main-answer flow of the `/query` route (server.js 1295–1324): the
first generation call produced `firstRaw` and — whenever the code decides
to regenerate — the second call produces `altRaw`.  An empty first answer is
replaced by the intent-specific fallback; if a previous bot message exists
and the answer is highly similar to it, exactly one diversified regeneration
is requested, and its result is kept only when non-empty and no longer
highly similar. -/
def mainAnswerFlow (intentTechnical : Bool) (lastBot firstRaw altRaw : Str) : GenOutcome :=
  let answerRaw :=
    if firstRaw = [] then (if intentTechnical then fallbackTechnical else fallbackGeneral)
    else firstRaw
  if lastBot ≠ [] ∧ answerRaw ≠ [] ∧ isHighlySimilarAnswer lastBot answerRaw = true then
    if altRaw ≠ [] ∧ isHighlySimilarAnswer lastBot altRaw = false then ⟨altRaw, 2⟩
    else ⟨answerRaw, 2⟩
  else ⟨answerRaw, 1⟩

/-! ### Claim C10: the recently-used-suggestion list (server.js 307–317) -/

/-- `markSuggestionUsed(q)`: trim the argument; ignore it when blank;
otherwise put it in front, drop any stored phrase equal to it
case-insensitively, and truncate the list to 5 entries
(`recentSuggestionPhrases.length = 5`). -/
def markSuggestionUsed (q : Str) (recent : List Str) : List Str :=
  let t := jsTrim q
  if t = [] then recent
  else (t :: recent.filter (fun x => !(jsLower x == jsLower t))).take 5

/-- No two stored phrases are equal case-insensitively. -/
def ciDistinct (l : List Str) : Prop :=
  l.Pairwise (fun a b => jsLower a ≠ jsLower b)

/-- The suggestion list after a sequence of `markSuggestionUsed` calls,
starting from the empty list the process boots with. -/
def recentAfter (qs : List Str) : List Str :=
  qs.foldl (fun l p => markSuggestionUsed p l) []

/-! ### The query normalizer (`normalizeQuery`, server.js 133–180)

The normalizer applies 35 whole-word, case-insensitive, global replacements
(`text.replace(/\bmisspelling\b/gi, word)`) in a fixed order.  The scan
below is the model of one such `replace`: at each position, if the pattern
matches case-insensitively with a word boundary on both sides, the
replacement is emitted and the scan resumes after the matched text;
otherwise the character is copied.  JS evaluates the boundary of a later
match on the *original* string, so the character before the resumption
point is the matched text's final character; its word-character class
equals that of the pattern's final character (matching is case-insensitive
and case changes never cross the `\w` class), which `ms.getLastD m0`
records.  The scan consumes at least one character per step, so the
character count is enough fuel. -/

/-- The `\b` test on the left of a match: start of string or a non-word
character. -/
def okBefore (pre : Option Char) : Bool :=
  match pre with
  | none => true
  | some c => !(isWordChar c)

/-- The `\b` test on the right of a match: end of string or a non-word
character. -/
def okAfter (s : Str) : Bool :=
  match s with
  | [] => true
  | c :: _ => !(isWordChar c)

/-- Case-insensitive prefix test (`/i` matching of the pattern literal). -/
def ciStarts : Str → Str → Bool
  | [], _ => true
  | _ :: _, [] => false
  | p :: ps, c :: cs => (lowerChar p == lowerChar c) && ciStarts ps cs

/-- Whether `/\bpat\b/i` matches at the current position: `pre` is the
character before the position (if any), `s` the rest of the string. -/
def wbMatchAt (pat : Str) (pre : Option Char) (s : Str) : Bool :=
  ciStarts pat s && okBefore pre && okAfter (s.drop pat.length)

/-- The fuelled scan of `replace(/\b(m0::ms)\b/gi, w)`. -/
def replWGo (m0 : Char) (ms w : Str) : ℕ → Option Char → Str → Str
  | 0, _, t => t
  | _ + 1, _, [] => []
  | fuel + 1, pre, c :: cs =>
    if wbMatchAt (m0 :: ms) pre (c :: cs) then
      w ++ replWGo m0 ms w fuel (some (ms.getLastD m0)) (cs.drop ms.length)
    else c :: replWGo m0 ms w fuel (some c) cs

/-- One whole-word case-insensitive global replacement with context `pre`. -/
def replW (m0 : Char) (ms w : Str) (pre : Option Char) (t : Str) : Str :=
  replWGo m0 ms w t.length pre t

/-- `text.replace(/\bm\b/gi, w)`. -/
def replaceWordCI (m w t : Str) : Str :=
  match m with
  | [] => t
  | m0 :: ms => replW m0 ms w none t

/-- The typo table of `normalizeQuery`, in source order. -/
def typoTable : List (Str × Str) :=
  [(str "autonmous", str "autonomous"),
   (str "autonnomous", str "autonomous"),
   (str "autonamous", str "autonomous"),
   (str "autonmoy", str "autonomy"),
   (str "autopliot", str "autopilot"),
   (str "valdiation", str "validation"),
   (str "validaton", str "validation"),
   (str "validaiton", str "validation"),
   (str "vlaidation", str "validation"),
   (str "strenghening", str "strengthening"),
   (str "strenghtening", str "strengthening"),
   (str "strenthening", str "strengthening"),
   (str "scrpting", str "scripting"),
   (str "scriptting", str "scripting"),
   (str "skritping", str "scripting"),
   (str "skripting", str "scripting"),
   (str "progarm", str "program"),
   (str "proram", str "program"),
   (str "programm", str "program"),
   (str "pogram", str "program"),
   (str "mangament", str "management"),
   (str "mangement", str "management"),
   (str "managment", str "management"),
   (str "operatons", str "operations"),
   (str "perseption", str "perception"),
   (str "percpetion", str "perception"),
   (str "perceptionn", str "perception"),
   (str "custmer", str "customer"),
   (str "cusotmer", str "customer"),
   (str "sucess", str "success"),
   (str "succes", str "success"),
   (str "expereince", str "experience"),
   (str "experiance", str "experience"),
   (str "experinece", str "experience"),
   (str "dataa", str "data")]

/-- `normalizeQuery(text)`: empty input is returned unchanged, otherwise the
35 replacements are applied in order. -/
def normalizeQuery (t : Str) : Str :=
  if t = [] then t
  else typoTable.foldl (fun acc p => replaceWordCI p.1 p.2 acc) t

/-! ### Claim C6: shared state written by request handlers
(server.js 303–317, 779–786) -/

/-- The module-level state of the server process: the knowledge base and
the embedding records built at startup, and the suggestion-rotation list
`recentSuggestionPhrases`. -/
structure ServerState where
  kb : List QA
  kbEmbeddings : List (ℕ × List ℚ)
  recent : List Str
deriving DecidableEq

/-- The `/query` route's test for a click on an exact knowledge-base
question (`qa.question && qa.question.trim().toLowerCase() ===
normalizedForSuggestion.toLowerCase()`). -/
def isExactKBQuestion (kb : List QA) (nfs : Str) : Bool :=
  kb.any (fun qa => (!(qa.question == [])) && (jsLower (jsTrim qa.question) == jsLower nfs))

/-- The effect of handling one `/query` request on the module-level state:
the handler normalizes the query and, when it matches a knowledge-base
question exactly, calls `markSuggestionUsed`, which reassigns
`recentSuggestionPhrases`; nothing else shared is written. -/
def queryStateEffect (st : ServerState) (rawQ : Str) : ServerState :=
  let originalQuery := normalizeQuery (jsTrim rawQ)
  let nfs := jsTrim originalQuery
  if isExactKBQuestion st.kb nfs then { st with recent := markSuggestionUsed nfs st.recent }
  else st

/-- The effect of handling one `/suggest` request on the module-level
state: the handler only reads `recentSuggestionPhrases` (for the avoid
set) and writes nothing. -/
def suggestStateEffect (st : ServerState) (_rawQ : Str) : ServerState := st

/-- The state used in the counterexample to claim C6. -/
def stExact : ServerState := ⟨[⟨str "Foo bar", str "ans", []⟩], [], []⟩

/-! ### Claim C4: the `/query` routing cascade (server.js 767–1030)

The `/query` handler, after input validation and the suggestion-marking
step (which returns nothing), walks a fixed cascade of early-return
branches; the first test that fires determines the response.  Each
word-boundary regex `\b(alt1|alt2|...)\b/i` is modelled by `wbAny` over its
alternatives; the intent computation (`technical` vs `kyle`/`mixed`) is a
parameter (`intentTechnical`), and `lower` is the lower-cased normalized
query the source tests. -/

/-- Whether `/\bpat\b/i` matches anywhere, scanning with left context. -/
def wbOccursAux (pat : Str) : Option Char → Str → Bool
  | pre, [] => wbMatchAt pat pre []
  | pre, c :: cs => wbMatchAt pat pre (c :: cs) || wbOccursAux pat (some c) cs

/-- Whether `/\bpat\b/i` matches anywhere in `s`. -/
def wbOccurs (pat s : Str) : Bool := wbOccursAux pat none s

/-- Whether any of the alternatives matches with word boundaries. -/
def wbAny (pats : List Str) (s : Str) : Bool := pats.any (fun p => wbOccurs p s)

/-- A match with a word boundary on the left only (used for the
`standard operating` alternative of the SOP regex, which has no closing
`\b`). -/
def wbLeftOccursAux (pat : Str) : Option Char → Str → Bool
  | pre, [] => ciStarts pat [] && okBefore pre
  | pre, c :: cs => (ciStarts pat (c :: cs) && okBefore pre) || wbLeftOccursAux pat (some c) cs

/-- Whether `/\bpat/i` matches anywhere in `s`. -/
def wbLeftOccurs (pat s : Str) : Bool := wbLeftOccursAux pat none s

/-- An anchored match `^(alt1|alt2|...)\b`. -/
def startBoundaryAny (pats : List Str) (s : Str) : Bool :=
  pats.any (fun p => ciStarts p s && okAfter (s.drop p.length))

def jokeHit (s : Str) : Bool :=
  wbAny [str "joke of the day", str "daily joke", str "random joke",
         str "surprise me with a joke", str "tell me a joke"] s

def hostileHit (s : Str) : Bool :=
  wbAny [str "suck", str "stupid", str "dumb", str "idiot", str "useless", str "trash",
         str "terrible", str "awful", str "horrible", str "crap", str "wtf", str "shit",
         str "fuck", str "fucking", str "bullshit", str "bs", str "garbage", str "bad ai",
         str "you suck"] s

def emotionalHit (s : Str) : Bool :=
  wbAny [str "frustrated", str "frustrating", str "confused", str "confusing",
         str "annoyed", str "annoying", str "overwhelmed", str "stressed",
         str "stressing", str "lost", str "stuck", str "irritated"] s

def aboutKyleHit (s : Str) : Bool :=
  wbAny [str "who is kyle", str "tell me about kyle", str "what does kyle do",
         str "kyle background", str "kyle experience"] s

def fullInfoHit (s : Str) : Bool :=
  wbAny [str "tell me everything", str "tell me all you know", str "everything you know",
         str "all info", str "all information", str "all you have on kyle",
         str "all you know about kyle"] s

def capabilityHit (s : Str) : Bool :=
  wbAny [str "can he", str "is he able", str "is kyle able", str "can kyle", str "could he",
         str "would he be able", str "handle this", str "take this on",
         str "perform this role", str "do this role", str "could he do it"] s

def payHit (s : Str) : Bool :=
  wbAny [str "salary", str "pay", str "compensation", str "comp", str "range",
         str "expected pay", str "pay expectations", str "comp expectations",
         str "salary expectations"] s

def whatKnowHit (s : Str) : Bool :=
  wbAny [str "what do you know", str "what all do you know", str "your knowledge",
         str "what info do you have"] s

def winsHit (s : Str) : Bool :=
  wbAny [str "win", str "wins", str "key wins", str "accomplish", str "accomplishment",
         str "accomplishments", str "achievement", str "achievements", str "results",
         str "notable"] s

def sopHit (s : Str) : Bool :=
  wbAny [str "sop", str "sops", str "process", str "processes", str "workflow",
         str "workflows", str "procedure", str "procedures"] s ||
  wbLeftOccurs (str "standard operating") s

def weaknessHit (s : Str) : Bool :=
  wbAny [str "weak", str "weakness", str "weakest", str "failure", str "failures",
         str "mistake", str "mistakes", str "shortcoming", str "shortcomings"] s

def challengeHit (s : Str) : Bool :=
  wbAny [str "your move", str "same energy", str "prove it", str "go on then",
         str "what you got", str "come on"] s

def vagueHit (s : Str) : Bool :=
  ([str "huh", str "k", str "kk", str "lol", str "lmao", str "idk", str "iono",
    str "hmmm", str "hmm", str "???", str "??", str "?", str "uh", str "umm"].contains s) ||
  ((decide (1 ≤ s.length)) && (decide (s.length ≤ 3)) &&
    s.all (fun c => jsWs c || c == '?' || c == '.' || c == '!'))

def affirmHit (s : Str) : Bool :=
  [str "y", str "yes", str "yeah", str "yep", str "sure", str "ok", str "okay",
   str "sounds good", str "go ahead", str "mhm"].contains (List.rdropWhile jsWs s)

/-- `extractKeywords(text)`: the matches of `\b[a-z]{3,}\b` on the
lower-cased text — exactly the maximal word-character runs made of at least
three lower-case letters — truncated to 10. -/
def extractKeywords (text : Str) : List Str :=
  ((splitPB (fun c => !(isWordChar c)) (jsLower text)).filter
    (fun r => (decide (3 ≤ r.length)) && r.all (fun c => decide ('a' ≤ c ∧ c ≤ 'z')))).take 10

/-- The categories of `detectOffTopicQuery`. -/
inductive OffTopic
  | joke | greeting | thanks | howAreYou | cooking | meaning | weather
deriving DecidableEq

/-- The ASCII apostrophe (written by code point to keep source lexing
simple). -/
def apos : Char := Char.ofNat 39

/-- `detectOffTopicQuery(query)` (server.js 510–538). -/
def detectOffTopic (query : Str) : Option OffTopic :=
  let q := jsTrim (jsLower query)
  if containsSub (str "tell me a joke") q || containsSub (str "joke about") q then
    some .joke
  else if startBoundaryAny
      [str "hi", str "hey", str "hello", str "sup", str "yo", str "whats up",
       str "what" ++ [apos] ++ str "s up", str "howdy"] q then
    some .greeting
  else if containsSub (str "thank") q then some .thanks
  else if containsSub (str "how are you") q || containsSub (str "howre you") q ||
      containsSub (str "how" ++ [apos] ++ str "re you") q ||
      containsSub (str "how r u") q then
    some .howAreYou
  else if containsSub (str "cook") q || containsSub (str "recipe") q ||
      containsSub (str "food") q then
    some .cooking
  else if containsSub (str "meaning of life") q || containsSub (str "purpose of life") q then
    some .meaning
  else if wbAny [str "weather", str "temperature", str "rain", str "snow", str "hot",
        str "cold", str "forecast"] q &&
      !(wbAny [str "test", str "testing", str "scenario", str "weather tests"] q) then
    some .weather
  else none

/-- The early-return branch taken by the `/query` cascade (or `retrieval`
when the query falls through to retrieval and generation). -/
inductive Branch
  | joke | hostile | emotional | aboutKyle | fullInfo | capability | pay | whatKnow
  | wins | sop | weakness | challenge | vague | affirmAsk | offTopic (t : OffTopic)
  | retrieval
deriving DecidableEq

/-- `/\bkyle\b/i.test(lower)` — `isAboutKyle`. -/
def kyleMention (s : Str) : Bool := wbOccurs (str "kyle") s

/-- The `/query` cascade in source order (server.js 824–1030): joke easter
egg, hostile, emotional, direct about-Kyle, tell-me-everything, capability,
pay, what-do-you-know, wins, SOPs, weaknesses, challenge phrases, very
low-signal queries, bare affirmatives (which fall through to retrieval when
keywords can be extracted from the previous turn), off-topic small talk
(only when the query does not mention Kyle and the intent is not
technical), and finally retrieval. -/
def routeBranch (lower lastBot : Str) (intentTechnical : Bool) : Branch :=
  if jokeHit lower then .joke
  else if hostileHit lower then .hostile
  else if emotionalHit lower then .emotional
  else if aboutKyleHit lower then .aboutKyle
  else if fullInfoHit lower then .fullInfo
  else if capabilityHit lower then .capability
  else if payHit lower then .pay
  else if whatKnowHit lower then .whatKnow
  else if winsHit lower then .wins
  else if sopHit lower then .sop
  else if weaknessHit lower then .weakness
  else if challengeHit lower then .challenge
  else if vagueHit lower then .vague
  else if affirmHit lower && !(lastBot == []) && (extractKeywords lastBot == []) then
    .affirmAsk
  else if !(kyleMention lower) && !intentTechnical then
    match detectOffTopic lower with
    | some t => .offTopic t
    | none => .retrieval
  else .retrieval

/-! ### Claim C8: idempotency of the query normalizer

The proof decomposes a string into its maximal runs of characters of equal
word-character class.  Every pattern and every replacement of the typo
table is a non-empty all-word-character token, so one global whole-word
replacement acts exactly on the word runs (a run is replaced when it is
case-insensitively equal to the pattern), and the run decomposition of the
result is the mapped decomposition.  The 35 replacements compose to a
per-run function that is idempotent — a run either is never rewritten, or
is rewritten to a replacement word on which no pattern matches — which
lifts to idempotency of `normalizeQuery`. -/

/-- The fuelled decomposition of a string into maximal runs of equal
word-character class. -/
def chunkGo : ℕ → Str → List Str
  | 0, _ => []
  | _ + 1, [] => []
  | fuel + 1, c :: cs =>
    (c :: cs.takeWhile (fun d => isWordChar d == isWordChar c)) ::
      chunkGo fuel (cs.dropWhile (fun d => isWordChar d == isWordChar c))

/-- The maximal-run decomposition of a string. -/
def chunkRuns (t : Str) : List Str := chunkGo t.length t

/-- Case-insensitive equality of strings (equal length, pairwise equal
lower-case forms). -/
def ciEqStr : Str → Str → Bool
  | [], [] => true
  | [], _ :: _ => false
  | _ :: _, [] => false
  | a :: as, b :: bs => (lowerChar a == lowerChar b) && ciEqStr as bs

/-- The action of one whole-word replacement on one maximal run. -/
def runMap (m w : Str) (r : Str) : Str := if ciEqStr r m then w else r

/-- The composite per-run action of a replacement table. -/
def applyTypos (tbl : List (Str × Str)) (r : Str) : Str :=
  tbl.foldl (fun acc p => runMap p.1 p.2 acc) r

/-- Every character of the run is a word character. -/
def allWord (r : Str) : Prop := ∀ a ∈ r, isWordChar a = true

/-- The string is empty or starts with a non-word character. -/
def headNonWord (s : Str) : Prop :=
  match s with
  | [] => True
  | c :: _ => isWordChar c = false

/-- The word-character class of a run (`false` for the empty run). -/
def runStat (r : Str) : Bool :=
  match r with
  | [] => false
  | c :: _ => isWordChar c

/-- A list of runs is a valid decomposition after a run of class `prev`:
every run is non-empty and homogeneous, and adjacent classes differ. -/
def runsOK : Option Bool → List Str → Prop
  | _, [] => True
  | prev, r :: rs =>
      r ≠ [] ∧ (∀ a ∈ r, isWordChar a = runStat r) ∧ some (runStat r) ≠ prev ∧
        runsOK (some (runStat r)) rs

/-! ### Claim C9: `formatParagraphs` (server.js 25–46)

The formatter is five global replacements followed by `trim()`:
carriage-return pairs, bullet markers, numbered-list markers, sentence
breaks, and blank-line collapsing.  Each replacement scan is modelled with
the generic fuelled scanner below: at each position, either a match is
consumed (emitting its replacement and resuming after the matched text,
exactly the JS `replace(/…/g)` semantics, whose backtracking on these five
patterns is deterministic) or one character is copied. -/

/-- A generic fuelled left-to-right replacement scan.  `step c cs` returns
`some (out, rest)` when a match starts at `c` (with `out` the replacement
and `rest` the text after the matched part), `none` otherwise. -/
def scanGo (step : Char → Str → Option (Str × Str)) : ℕ → Str → Str
  | 0, t => t
  | _ + 1, [] => []
  | fuel + 1, c :: cs =>
    match step c cs with
    | some (out, rest) => out ++ scanGo step fuel rest
    | none => c :: scanGo step fuel cs

/-- The scan with enough fuel (every step consumes at least `c`). -/
def scan (step : Char → Str → Option (Str × Str)) (t : Str) : Str :=
  scanGo step t.length t

/-- A step never produces a continuation longer than its input. -/
def StepBound (step : Char → Str → Option (Str × Str)) : Prop :=
  ∀ c cs out rest, step c cs = some (out, rest) → rest.length ≤ cs.length

/-- One match of the Windows line-break pattern. -/
def p1Step (c : Char) (cs : Str) : Option (Str × Str) :=
  if c == '\r' then
    match cs with
    | d :: rest => if d == '\n' then some (['\n'], rest) else none
    | [] => none
  else none

/-- `out = out.replace(/\r\n/g, '\n')`. -/
def p1 (t : Str) : Str := scan p1Step t

/-- The bullet-marker class `[\*•]`. -/
def bulletChar (c : Char) : Bool := c == '*' || c == '•'

/-- One match of `(\S)\s*[\*•]\s+` starting at a non-space `c`: the next
non-space character must be a bullet followed by at least one space; the
replacement is `'$1\n* '` and the scan resumes after the consumed
whitespace. -/
def p2Step (c : Char) (cs : Str) : Option (Str × Str) :=
  if jsWs c then none
  else
    match cs.dropWhile jsWs with
    | [] => none
    | b :: rest2 =>
      if bulletChar b && (match rest2 with | e :: _ => jsWs e | [] => false) then
        some ([c, '\n', '*', ' '], rest2.dropWhile jsWs)
      else none

/-- `out = out.replace(/(\S)\s*[\*•]\s+/g, '$1\n* ')`. -/
def p2 (t : Str) : Str := scan p2Step t

/-- One match of `(\S)\s*(\d+)\.\s+` starting at a non-space `c`: after
optional whitespace a maximal digit run, a period and at least one space;
the replacement is `'$1\n$2. '`. -/
def p3Step (c : Char) (cs : Str) : Option (Str × Str) :=
  if jsWs c then none
  else
    match (cs.dropWhile jsWs).dropWhile Char.isDigit with
    | d :: r2 =>
      if d == '.' && !((cs.dropWhile jsWs).takeWhile Char.isDigit).isEmpty &&
          (match r2 with | e :: _ => jsWs e | [] => false) then
        some (c :: '\n' :: (((cs.dropWhile jsWs).takeWhile Char.isDigit) ++ ['.', ' ']),
          r2.dropWhile jsWs)
      else none
    | [] => none

/-- `out = out.replace(/(\S)\s*(\d+)\.\s+/g, '$1\n$2. ')`. -/
def p3 (t : Str) : Str := scan p3Step t

/-- Sentence-ending punctuation `[.?!]`. -/
def sentEnd (c : Char) : Bool := c == '.' || c == '?' || c == '!'

/-- The capital-letter class `[A-Z]`. -/
def isUpperAZ (c : Char) : Bool := decide ('A' ≤ c) && decide (c ≤ 'Z')

/-- The sentence-break match condition at one position: `c` ends a sentence,
at least one whitespace character follows, and the first character after the
whitespace run is a capital (the greedy `\s+` with the `(?=[A-Z])` look-ahead
succeeds exactly on the whole run). -/
def q4fire (c : Char) (cs : Str) : Bool :=
  sentEnd c && !(cs.takeWhile jsWs).isEmpty &&
    (match cs.dropWhile jsWs with | e :: _ => isUpperAZ e | [] => false)

/-- One match of `([.?!])\s+(?=[A-Z])`: the whitespace run is replaced by a
newline and the scan resumes at the capital (the look-ahead is not consumed). -/
def p4Step (c : Char) (cs : Str) : Option (Str × Str) :=
  if q4fire c cs then some ([c, '\n'], cs.dropWhile jsWs) else none

/-- `out = out.replace(/([.?!])\s+(?=[A-Z])/g, '$1\n')`. -/
def p4 (t : Str) : Str := scan p4Step t

/-- The blank-line match condition at one position: a newline followed by at
least two more newlines. -/
def p5fire (c : Char) (cs : Str) : Bool :=
  c == '\n' && decide (2 ≤ (cs.takeWhile (fun d => d == '\n')).length)

/-- One match of `\n{3,}`: the maximal newline run is replaced by exactly two
newlines. -/
def p5Step (c : Char) (cs : Str) : Option (Str × Str) :=
  if p5fire c cs then some (['\n', '\n'], cs.dropWhile (fun d => d == '\n'))
  else none

/-- `out = out.replace(/\n{3,}/g, '\n\n')`. -/
def p5 (t : Str) : Str := scan p5Step t

/-- `formatParagraphs(text)`: empty input unchanged, otherwise the five
replacement passes in source order followed by `trim()`. -/
def formatParagraphs (t : Str) : Str :=
  if t = [] then t
  else jsTrim (p5 (p4 (p3 (p2 (p1 t)))))

/-- The sentence-break invariant: wherever the sentence-break pattern could
match, the whitespace run is already exactly one newline, so the match
rewrites the text to itself. -/
def q4ok : Str → Bool
  | [] => true
  | c :: cs => (!q4fire c cs || (cs.takeWhile jsWs == ['\n'])) && q4ok cs

/-- The blank-line invariant: the blank-line pattern matches nowhere (no
three consecutive newlines). -/
def noTriple : Str → Bool
  | [] => true
  | c :: cs => !p5fire c cs && noTriple cs

/-- Case-insensitive match of one pattern character (the JS `i` flag on the
ASCII fragment): the text character lower-cases to the given (lower-case)
pattern character. -/
def chCI (l : Char) : Char → Bool := fun c => lowerChar c == l

/-- The apostrophe character class `['’]` of the source patterns (ASCII
apostrophe or right single quotation mark). -/
def aposCl : Char → Bool := fun c => c == apos || c == '’'

/-- The compiled form of a case-insensitive literal (written lower-case). -/
def ciPat (w : Str) : List (Char → Bool) := w.map chCI

/-- Does the text begin with the pattern (one character class per pattern
character)? -/
def matchesP : List (Char → Bool) → Str → Bool
  | [], _ => true
  | _ :: _, [] => false
  | p :: ps, c :: cs => p c && matchesP ps cs

/-- A fuelled left-to-right replacement scan that tracks whether the
previous character of the original text is a word character (for leading
`\b` checks).  On a match the step returns the replacement, the word-status
of the last matched character, and the text after the match; JS evaluates
the next `\b` against the original text, which is exactly this scan. -/
def scanBGo (step : Bool → Char → Str → Option (Str × Bool × Str)) :
    ℕ → Bool → Str → Str
  | 0, _, t => t
  | _ + 1, _, [] => []
  | fuel + 1, prevW, c :: cs =>
    match step prevW c cs with
    | some (out, w2, rest) => out ++ scanBGo step fuel w2 rest
    | none => c :: scanBGo step fuel (isWordChar c) cs

/-- The boundary-aware scan with enough fuel; at the start of the string the
previous character counts as a non-word character. -/
def scanB (step : Bool → Char → Str → Option (Str × Bool × Str)) (t : Str) :
    Str :=
  scanBGo step t.length false t

/-- One match of `\b<pat>\b` at the current position: the previous character
is not a word character, the pattern matches, and the character after it is
not a word character.  All the patterns this is used with start and end in a
word character, so the two `\b` are exactly these tests and the word-status
after a match is `true`. -/
def wordPatStep (pat : List (Char → Bool)) (rep : Str) (prevW : Bool)
    (c : Char) (cs : Str) : Option (Str × Bool × Str) :=
  if !prevW && matchesP pat (c :: cs) &&
      (match (c :: cs).drop pat.length with
       | [] => true
       | d :: _ => !isWordChar d) then
    some (rep, true, (c :: cs).drop pat.length)
  else none

/-- One global replacement `out.replace(/\b<pat>\b/g…, rep)` for a
fixed-length pattern of character classes. -/
def replaceWordPat (pat : List (Char → Bool)) (rep : Str) (t : Str) : Str :=
  scanB (wordPatStep pat rep) t

/-- `raw.split('\n')` (JS `split` keeps empty fields). -/
def splitNl : Str → List Str
  | [] => [[]]
  | c :: cs =>
    if c = '\n' then [] :: splitNl cs
    else
      match splitNl cs with
      | g :: gs => (c :: g) :: gs
      | [] => [[c]]

/-- A match of `/agent k\b/i` starting at the head of the text. -/
def agentKAt (t : Str) : Bool :=
  matchesP (ciPat (str "agent k")) t &&
    (match t.drop 7 with
     | [] => true
     | d :: _ => !isWordChar d)

/-- `/agent k\b/i.test(line)`: the pattern occurs somewhere in the line. -/
def hasAgentK : Str → Bool
  | [] => false
  | c :: cs => agentKAt (c :: cs) || hasAgentK cs

/-- The replacement text `"Kyle's"` (server.js 77), with an explicit
apostrophe character. -/
def kylePoss : Str := str "Kyle" ++ [apos] ++ str "s"

/-- The per-line body of `enforceThirdPersonForKyle` (server.js 53–88):
lines mentioning Agent K are kept unchanged; otherwise the nine first-person
rewrites are applied in source order, each a whole-word global replacement,
all case-insensitive except the bare `/\bI\b/g`. -/
def enforceLine (line : Str) : Str :=
  if hasAgentK line then line
  else
    replaceWordPat (ciPat (str "myself")) (str "himself")
      (replaceWordPat [fun c => c == 'I'] (str "Kyle")
        (replaceWordPat (ciPat (str "me")) (str "Kyle")
          (replaceWordPat (ciPat (str "my")) kylePoss
            (replaceWordPat (ciPat (str "i") ++ [aposCl] ++ ciPat (str "ve"))
                (str "Kyle has")
              (replaceWordPat (ciPat (str "i") ++ [aposCl] ++ ciPat (str "ll"))
                  (str "Kyle will")
                (replaceWordPat (ciPat (str "i") ++ [aposCl] ++ ciPat (str "d"))
                    (str "Kyle would")
                  (replaceWordPat (ciPat (str "i am")) (str "Kyle is")
                    (replaceWordPat
                        (ciPat (str "i") ++ [aposCl] ++ ciPat (str "m"))
                        (str "Kyle is")
                      line))))))))

/-- `enforceThirdPersonForKyle` (server.js 49–92): split on newlines, rewrite
each line, join with newlines; empty input is returned unchanged. -/
def enforceThirdPersonForKyle (raw : Str) : Str :=
  if raw = [] then raw
  else List.intercalate ['\n'] ((splitNl raw).map enforceLine)

/-- One match of `/Same energy\.?\s*Your move\.?/gi`: each optional dot and
the greedy `\s*` backtrack deterministically (a dot can satisfy neither the
following whitespace nor the following literal), so the match takes each dot
when present and the maximal whitespace run. -/
def sameEnergyStep (c : Char) (cs : Str) : Option (Str × Str) :=
  if matchesP (ciPat (str "same energy")) (c :: cs) then
    let r1 := (c :: cs).drop 11
    let r2 := if r1.head? = some '.' then r1.tail else r1
    let r3 := r2.dropWhile jsWs
    if matchesP (ciPat (str "your move")) r3 then
      let r4 := r3.drop 9
      some ([], if r4.head? = some '.' then r4.tail else r4)
    else none
  else none

/-- One match of `/<pat>[^.?!]*[.?!]/gi`: after the literal, the greedy
non-punctuation run extends exactly to the first sentence punctuation, which
must exist and is consumed. -/
def phraseToPunctStep (pat : List (Char → Bool)) (c : Char) (cs : Str) :
    Option (Str × Str) :=
  if matchesP pat (c :: cs) then
    match ((c :: cs).drop pat.length).dropWhile (fun d => !sentEnd d) with
    | _ :: rest => some ([], rest)
    | [] => none
  else none

/-- Does the pattern occur (start) anywhere in the text? -/
def containsPat (pat : List (Char → Bool)) : Str → Bool
  | [] => false
  | c :: cs => matchesP pat (c :: cs) || containsPat pat cs

/-- One match of `/[^.?!]*here[’']s a light one[^.?!]*[.?!]/gi` at the
current (leftmost) position: because of the leading greedy class, a match
starts here exactly when the maximal punctuation-free zone from here
contains the literal and is closed by a sentence punctuation; the whole zone
and that punctuation are consumed (the literal itself contains no
punctuation, so it cannot straddle the zone end). -/
def lightOneStep (c : Char) (cs : Str) : Option (Str × Str) :=
  match (c :: cs).dropWhile (fun d => !sentEnd d) with
  | _ :: rest =>
    if containsPat
        (ciPat (str "here") ++ [aposCl] ++ ciPat (str "s a light one"))
        ((c :: cs).takeWhile (fun d => !sentEnd d)) then
      some ([], rest)
    else none
  | [] => none

/-- One match of `/[ \t]{2,}/g`: a maximal run of at least two spaces or
tabs, replaced by a single space. -/
def spaceRunStep (c : Char) (cs : Str) : Option (Str × Str) :=
  if (c == ' ' || c == '\t') &&
      (match cs with
       | d :: _ => d == ' ' || d == '\t'
       | [] => false) then
    some ([' '], cs.dropWhile (fun d => d == ' ' || d == '\t'))
  else none

/-- The right single quotation mark used in the source's replacement text. -/
def rsq : Char := Char.ofNat 8217

/-- The replacement sentence of the Agent-K-artifact rule (server.js
116–120). -/
def agentKRewrite : Str :=
  str "Agent K is an AI assistant that represents Kyle" ++ [rsq] ++
    str "s professional experience."

/-- One match of `/\bHe is Agent K[^.?!]*[.?!]?/gi`: a leading word
boundary, the literal, the greedy run to the first sentence punctuation,
and — the final class being optional — that punctuation when present.  The
last consumed character is never a word character (a sentence punctuation,
or the match runs to the end of the text). -/
def heIsAgentKStep (prevW : Bool) (c : Char) (cs : Str) :
    Option (Str × Bool × Str) :=
  if !prevW && matchesP (ciPat (str "he is agent k")) (c :: cs) then
    match ((c :: cs).drop 13).dropWhile (fun d => !sentEnd d) with
    | _ :: rest => some (agentKRewrite, false, rest)
    | [] => some (agentKRewrite, false, [])
  else none

/-- `sanitizePhrases` (server.js 94–122): the five phrase-removal
replacements, the two whitespace-collapsing replacements (the `\n{3,}` rule
is the same regex as the fifth `formatParagraphs` pass, hence `p5`), the
Agent-K-artifact rewrite, then `trim()`, all in source order; empty input is
returned unchanged. -/
def sanitizePhrases (text : Str) : Str :=
  if text = [] then text
  else
    jsTrim (scanB heIsAgentKStep
      (p5 (scan spaceRunStep
        (scan lightOneStep
          (scan (phraseToPunctStep (ciPat (str "try asking something about kyle")))
            (scan (phraseToPunctStep (ciPat (str "kyle is here")))
              (scan (phraseToPunctStep
                  (ciPat (str "i") ++ [aposCl] ++ ciPat (str "m here")))
                (scan sameEnergyStep text))))))))

/-- `sanitizeOutput` (server.js 124–130): third-person enforcement, phrase
sanitization, then paragraph formatting (`text || ''` is the identity in the
list-of-characters model). -/
def sanitizeOutput (text : Str) : Str :=
  formatParagraphs (sanitizePhrases (enforceThirdPersonForKyle text))

/-- The retrieval-stage decision of the `/query` route (server.js
1054–1077) for a query that reached it (no earlier classifier branch
returned, intent is not `technical`, not behavioral/PM-CX), parameterised by
the optional per-index semantic similarity map.  The source sets `topScore =
relevantQAs.length ? relevantQAs[0].score : 0` and, when
`relevantQAs.length && topScore >= STRONG_THRESHOLD`, responds with
`sanitizeOutput(relevantQAs[0].answer)` without calling generation; the two
tests are folded into one `match`. -/
def retrievalStage (kb : List QA) (originalQuery : Str)
    (sem : Option (ℕ → ℚ)) : RetrievalOutcome :=
  match hybridSearchKB kb originalQuery 6 sem with
  | [] => .generate
  | top :: _ =>
    if STRONG_THRESHOLD ≤ top.score then .answered (sanitizeOutput top.qa.answer)
    else .generate

/-- The retrieval stage in lexical-only mode (no query embedding was
obtained, so `hybridSearchKnowledgeBase` ranks by keyword score alone). -/
def retrievalStageLexOnly (kb : List QA) (originalQuery : Str) :
    RetrievalOutcome :=
  retrievalStage kb originalQuery none

/-! ### Basic facts about the character tables -/

theorem lowerChar_idem (c : Char) : lowerChar (lowerChar c) = lowerChar c := by
  unfold lowerChar
  cases h : lowerTable.find? (fun p => p.1 == c) with
  | none => simp [h]
  | some p =>
    have hmem : p ∈ lowerTable := List.mem_of_find?_eq_some h
    have : ∀ q ∈ lowerTable, lowerTable.find? (fun r => r.1 == q.2) = none := by decide
    simp [this p hmem]

theorem lowerChar_isWordChar (c : Char) : isWordChar (lowerChar c) = isWordChar c := by
  unfold lowerChar
  cases h : lowerTable.find? (fun p => p.1 == c) with
  | none => rfl
  | some p =>
    have hmem : p ∈ lowerTable := List.mem_of_find?_eq_some h
    have hc : p.1 = c := by
      have := List.find?_some h
      simpa using this
    have : ∀ q ∈ lowerTable, isWordChar q.1 = true ∧ isWordChar q.2 = true := by decide
    rw [← hc]
    rcases this p hmem with ⟨h1, h2⟩
    rw [h1, h2]

theorem lowerChar_jsWs (c : Char) : jsWs (lowerChar c) = jsWs c := by
  unfold lowerChar
  cases h : lowerTable.find? (fun p => p.1 == c) with
  | none => rfl
  | some p =>
    have hmem : p ∈ lowerTable := List.mem_of_find?_eq_some h
    have hc : p.1 = c := by
      have := List.find?_some h
      simpa using this
    have : ∀ q ∈ lowerTable, jsWs q.1 = false ∧ jsWs q.2 = false := by decide
    rw [← hc]
    rcases this p hmem with ⟨h1, h2⟩
    rw [h1, h2]

theorem jsLower_idem (s : Str) : jsLower (jsLower s) = jsLower s := by
  simp only [jsLower, List.map_map]
  exact List.map_congr_left (fun c _ => lowerChar_idem c)

theorem dropWhile_map_lowerChar (l : Str) :
    (l.map lowerChar).dropWhile jsWs = (l.dropWhile jsWs).map lowerChar := by
  induction l with
  | nil => rfl
  | cons c cs ih =>
    by_cases h : jsWs c
    · simp [List.dropWhile_cons, h, lowerChar_jsWs, ih]
    · simp [List.dropWhile_cons, h, lowerChar_jsWs]

theorem jsLower_jsTrim (s : Str) : jsLower (jsTrim s) = jsTrim (jsLower s) := by
  simp only [jsLower, jsTrim, List.rdropWhile, dropWhile_map_lowerChar]
  rw [← List.map_reverse, dropWhile_map_lowerChar, ← List.map_reverse]

theorem dropWhile_jsTrim (s : Str) : (jsTrim s).dropWhile jsWs = jsTrim s := by
  unfold jsTrim
  cases h : List.rdropWhile jsWs (s.dropWhile jsWs) with
  | nil => rfl
  | cons c cs =>
    have hpre : List.rdropWhile jsWs (s.dropWhile jsWs) <+: s.dropWhile jsWs :=
      List.rdropWhile_prefix _ _
    rw [h] at hpre
    obtain ⟨t, ht⟩ := hpre
    have hc : ¬ jsWs c := by
      have := List.head?_dropWhile_not jsWs s
      rw [← ht] at this
      simpa using this
    simp [List.dropWhile_cons, hc]

theorem jsTrim_idem (s : Str) : jsTrim (jsTrim s) = jsTrim s := by
  conv_lhs => rw [jsTrim, dropWhile_jsTrim]
  rw [jsTrim, List.rdropWhile_idempotent]

/-- Lower-casing and trimming stabilises after one round, so scoring the
already-prepared query is the same as scoring the raw one. -/
theorem keywordScoreAll_prepared (kb : List QA) (query : Str) :
    keywordScoreAll kb (jsTrim (jsLower query)) = keywordScoreAll kb query := by
  unfold keywordScoreAll
  rw [jsLower_jsTrim, jsLower_idem, jsTrim_idem]

theorem keywordScoreAll_eq_nil_of_degenerate (kb : List QA) (query : Str)
    (h : jsTrim (jsLower query) = [] ∨ kb = []) : keywordScoreAll kb query = [] := by
  rcases h with h | h
  · simp [keywordScoreAll, h]
  · subst h
    simp [keywordScoreAll]

theorem hybridSearchKB_none (kb : List QA) (query : Str) (limit : ℕ) :
    hybridSearchKB kb query limit none = lexicalOnlyRanking kb query limit := by
  unfold hybridSearchKB lexicalOnlyRanking
  by_cases h : jsTrim (jsLower query) = [] ∨ kb = []
  · rw [if_pos h, keywordScoreAll_eq_nil_of_degenerate kb query h]
    simp [sortByScoreDesc]
  · rw [if_neg h, keywordScoreAll_prepared]

/-- Claim C7: with no query embedding available — for any of the degraded
reasons collected in `sem = none` — hybrid search returns exactly the
lexical-only ranking.  The function is total, so no error reaches the
caller. -/
theorem hybridSearch_degrades_to_lexical (kb : List QA) (query : Str) (limit : ℕ) :
    hybridSearchKB kb query limit none = lexicalOnlyRanking kb query limit :=
  hybridSearchKB_none kb query limit

/-- Claim C2 (amended): with a query embedding in hand, fusion computes
`0.35 * (lexicalScore / maxLexicalScore) + 0.65 * max(cosine, 0)` per entry,
drops entries with combined score `≤ 0`, sorts descending and truncates. -/
theorem fusion_formula_amended (kb : List QA) (query : Str) (limit : ℕ) (sims : ℕ → ℚ)
    (h : 0 < maxLexScore kb query) :
    hybridSearchKB kb query limit (some sims) = fuseSpecAmended kb query limit sims := by
  have hne : ¬ (jsTrim (jsLower query) = [] ∨ kb = []) := by
    intro hcon
    rw [maxLexScore, keywordScoreAll_eq_nil_of_degenerate kb query hcon] at h
    exact absurd h (by norm_num)
  unfold hybridSearchKB fuseSpecAmended
  rw [if_neg hne, keywordScoreAll_prepared]
  have hfold : (keywordScoreAll kb query).foldl (fun m it => max m it.score) 0 =
      maxLexScore kb query := rfl
  simp only [hfold]
  apply congrArg (List.take limit)
  apply congrArg sortByScoreDesc
  apply congrArg (List.filter _)
  apply List.map_congr_left
  intro it _
  simp only [if_pos h]
  congr 1
  by_cases hs : 0 < sims it.index
  · rw [if_pos hs, max_eq_left (le_of_lt hs)]
  · rw [if_neg hs, max_eq_right (le_of_not_lt hs)]

/-- Counterexample to claim C2 as stated: with a negative cosine similarity
the code clamps the semantic term at zero (`embeddingScores` only stores
positive similarities and absent keys read as 0), so the fused ranking is
not the one computed by the claim's formula, although the claim's
hypotheses (non-empty lexical score map, embedding obtained) hold. -/
theorem fusion_formula_counterexample :
    0 < maxLexScore kbFuse (str "foo") ∧
    hybridSearchKB kbFuse (str "foo") 5 (some (fun _ => -1)) ≠
      fuseSpecClaim kbFuse (str "foo") 5 (fun _ => -1) := by
  constructor
  · with_unfolding_all decide
  · with_unfolding_all decide

/-- Witness instantiating `fusion_formula_amended` at a concrete input. -/
theorem fusion_formula_amended_witness :
    hybridSearchKB kbFuse (str "foo") 5 (some (fun _ => 1 / 2)) =
      fuseSpecAmended kbFuse (str "foo") 5 (fun _ => 1 / 2) :=
  fusion_formula_amended kbFuse (str "foo") 5 (fun _ => 1 / 2) (by with_unfolding_all decide)

theorem foldl_add3_eq_countP (pred : Str → Bool) (l : List Str) (n : ℕ) :
    l.foldl (fun s w => if pred w then s + 3 else s) n = n + 3 * l.countP pred := by
  induction l generalizing n with
  | nil => simp
  | cons w ws ih =>
    by_cases h : pred w
    · simp [List.foldl_cons, h, ih, List.countP_cons]
      omega
    · simp [List.foldl_cons, h, ih, List.countP_cons]

/-- Claim C5 (amended): the accumulated lexical score equals the closed
form with the 20-character guard; in particular it is a non-negative
integer (it lives in `ℕ`). -/
theorem lexicalScore_closed_form (query : Str) (qa : QA) :
    keywordScore (jsTrim (jsLower query)) qa = lexicalScoreAmended query qa := by
  unfold keywordScore lexicalScoreAmended
  dsimp only
  rw [foldl_add3_eq_countP]
  by_cases h1 : (qa.keywords.any (fun k => containsSub (jsLower k) (jsTrim (jsLower query)))) = true
  · by_cases h2 : qa.question ≠ [] ∧ 20 ≤ qa.question.length ∧
        containsSub ((jsLower qa.question).take 20) (jsTrim (jsLower query)) = true
    · rw [if_pos h2, if_pos h1, if_pos h1, if_pos h2]
    · rw [if_neg h2, if_pos h1, if_pos h1, if_neg h2]
  · by_cases h2 : qa.question ≠ [] ∧ 20 ≤ qa.question.length ∧
        containsSub ((jsLower qa.question).take 20) (jsTrim (jsLower query)) = true
    · rw [if_pos h2, if_neg h1, if_neg h1, if_pos h2]
    · rw [if_neg h2, if_neg h1, if_neg h1, if_neg h2]

/-- Counterexample to claim C5 as stated: for a question shorter than 20
characters the code never awards the +10 question-head bonus (the source
guards it with `qa.question.length >= 20`), while the claim's formula does:
on query `"ab"` and question `"ab"` the code scores 0, the claim's formula
scores 10. -/
theorem lexicalScore_counterexample :
    keywordScore (jsTrim (jsLower (str "ab"))) qaShort = 0 ∧
    lexicalScoreClaim (str "ab") qaShort = 10 := by
  constructor
  · decide
  · decide

/-- Witness instantiating `lexicalScore_closed_form` at a concrete input. -/
theorem lexicalScore_closed_form_witness :
    keywordScore (jsTrim (jsLower (str "ab"))) qaShort = lexicalScoreAmended (str "ab") qaShort :=
  lexicalScore_closed_form (str "ab") qaShort

theorem sortByScoreDesc_perm (l : List ScoredQA) : List.Perm (sortByScoreDesc l) l :=
  List.perm_insertionSort _ l

theorem sortByScoreDesc_head_max (l : List ScoredQA) (top : ScoredQA) (rest : List ScoredQA)
    (h : sortByScoreDesc l = top :: rest) : ∀ x ∈ l, x.score ≤ top.score := by
  intro x hx
  have hperm := sortByScoreDesc_perm l
  have hx' : x ∈ top :: rest := by
    rw [← h]
    exact hperm.symm.subset hx
  rcases List.mem_cons.mp hx' with rfl | hx'
  · exact le_refl _
  · have hsorted : List.Sorted (fun a b : ScoredQA => b.score ≤ a.score) (sortByScoreDesc l) :=
      List.sorted_insertionSort _ l
    rw [h, List.sorted_cons] at hsorted
    exact hsorted.1 x hx'

theorem sortByScoreDesc_head_mem (l : List ScoredQA) (top : ScoredQA) (rest : List ScoredQA)
    (h : sortByScoreDesc l = top :: rest) : top ∈ l := by
  have hperm := sortByScoreDesc_perm l
  have : top ∈ sortByScoreDesc l := by
    rw [h]
    exact List.mem_cons_self _ _
  exact hperm.subset this

theorem sortByScoreDesc_ne_nil (l : List ScoredQA) (h : l ≠ []) : sortByScoreDesc l ≠ [] := by
  intro hcon
  have := (sortByScoreDesc_perm l).length_eq
  rw [hcon] at this
  exact h (List.length_eq_zero.mp this.symm)

theorem mem_keywordScoreAll (kb : List QA) (oq : Str) (qa : QA)
    (hmem : qa ∈ kb) (hq : jsTrim (jsLower oq) ≠ []) :
    ∃ i, (⟨qa, (keywordScore (jsTrim (jsLower oq)) qa : ℚ), i⟩ : ScoredQA) ∈
      keywordScoreAll kb oq := by
  unfold keywordScoreAll
  rw [if_neg hq]
  suffices h : ∀ n : ℕ, qa ∈ kb → ∃ i, (⟨qa, (keywordScore (jsTrim (jsLower oq)) qa : ℚ), i⟩ :
      ScoredQA) ∈ (kb.enumFrom n).map
        (fun p => ⟨p.2, (keywordScore (jsTrim (jsLower oq)) p.2 : ℚ), p.1⟩) by
    exact h 0 hmem
  clear hmem
  induction kb with
  | nil => intro n h; cases h
  | cons b bs ih =>
    intro n h
    rcases List.mem_cons.mp h with rfl | h
    · exact ⟨n, by simp [List.enumFrom]⟩
    · obtain ⟨i, hi⟩ := ih (n + 1) h
      exact ⟨i, by simp [List.enumFrom]; right; simpa using hi⟩

/-- Claim C1 (amended): in lexical-only retrieval mode (no query embedding
was obtained), for every non-blank query reaching the retrieval stage that
exactly matches a knowledge-base entry's question case-insensitively *with a
positive lexical score for that entry*, the top lexical score reaches the
strong threshold and the route responds with the answer of a maximal-scoring
entry passed through `sanitizeOutput` — not verbatim — without any
generation call. -/
theorem strong_exact_match_amended (kb : List QA) (oq : Str) (qa : QA)
    (hmem : qa ∈ kb)
    (_hmatch : jsLower oq = jsLower qa.question)
    (hq : jsTrim (jsLower oq) ≠ [])
    (hpos : 0 < keywordScore (jsTrim (jsLower oq)) qa) :
    ∃ s ∈ keywordScoreAll kb oq,
      (∀ t ∈ keywordScoreAll kb oq, t.score ≤ s.score) ∧
      STRONG_THRESHOLD ≤ s.score ∧
      retrievalStageLexOnly kb oq = .answered (sanitizeOutput s.qa.answer) := by
  obtain ⟨i, hi⟩ := mem_keywordScoreAll kb oq qa hmem hq
  set e : ScoredQA := ⟨qa, (keywordScore (jsTrim (jsLower oq)) qa : ℚ), i⟩ with he
  have hepos : (0 : ℚ) < e.score := by
    show (0 : ℚ) < ((keywordScore (jsTrim (jsLower oq)) qa : ℕ) : ℚ)
    exact_mod_cast hpos
  have hefil : e ∈ (keywordScoreAll kb oq).filter (fun it => 0 < it.score) := by
    rw [List.mem_filter]
    exact ⟨hi, by simpa using hepos⟩
  have hfilne : (keywordScoreAll kb oq).filter (fun it => 0 < it.score) ≠ [] := by
    intro hcon
    rw [hcon] at hefil
    cases hefil
  have hsortne := sortByScoreDesc_ne_nil _ hfilne
  obtain ⟨top, rest, htop⟩ :
      ∃ top rest, sortByScoreDesc ((keywordScoreAll kb oq).filter (fun it => 0 < it.score)) =
        top :: rest := by
    cases hs : sortByScoreDesc ((keywordScoreAll kb oq).filter (fun it => 0 < it.score)) with
    | nil => exact absurd hs hsortne
    | cons a b => exact ⟨a, b, rfl⟩
  have htopmem : top ∈ (keywordScoreAll kb oq).filter (fun it => 0 < it.score) :=
    sortByScoreDesc_head_mem _ _ _ htop
  have htoppos : (0 : ℚ) < top.score := by
    have := (List.mem_filter.mp htopmem).2
    simpa using this
  have htopall : ∀ t ∈ keywordScoreAll kb oq, t.score ≤ top.score := by
    intro t ht
    by_cases hts : (0 : ℚ) < t.score
    · exact sortByScoreDesc_head_max _ _ _ htop t (List.mem_filter.mpr ⟨ht, by simpa using hts⟩)
    · exact le_trans (le_of_not_lt hts) (le_of_lt htoppos)
  have hstrong : STRONG_THRESHOLD ≤ top.score := by
    have h1 : (1 : ℚ) ≤ e.score := by
      show (1 : ℚ) ≤ ((keywordScore (jsTrim (jsLower oq)) qa : ℕ) : ℚ)
      exact_mod_cast hpos
    have h2 : e.score ≤ top.score := htopall e hi
    calc STRONG_THRESHOLD ≤ (1 : ℚ) := by rw [STRONG_THRESHOLD]; norm_num
    _ ≤ e.score := h1
    _ ≤ top.score := h2
  refine ⟨top, List.mem_of_mem_filter htopmem, htopall, hstrong, ?_⟩
  unfold retrievalStageLexOnly retrievalStage
  rw [hybridSearchKB_none]
  unfold lexicalOnlyRanking
  rw [htop]
  simp only [List.take_succ_cons]
  rw [if_pos hstrong]

/-- Counterexample to claim C1 as stated: the query `"ab cd"` exactly
matches the knowledge-base question `"ab cd"` case-insensitively (and is
already normalized), yet its lexical score is 0 — the question is shorter
than 20 characters and no query token is longer than 2 characters — so the
entry is filtered out, no strong hit fires, and the route proceeds to the
generation call instead of returning `"ANSWER"` verbatim. -/
theorem strong_exact_match_counterexample :
    (∃ qa ∈ kbShortQ, jsLower (str "ab cd") = jsLower qa.question) ∧
    retrievalStageLexOnly kbShortQ (str "ab cd") = .generate := by
  constructor
  · refine ⟨⟨str "ab cd", str "ANSWER", []⟩, by decide, by decide⟩
  · with_unfolding_all decide

/-- Witness instantiating `strong_exact_match_amended` at a concrete
input. -/
theorem strong_exact_match_witness :
    ∃ s ∈ keywordScoreAll kbLongQ (str "what is agent k about today"),
      (∀ t ∈ keywordScoreAll kbLongQ (str "what is agent k about today"), t.score ≤ s.score) ∧
      STRONG_THRESHOLD ≤ s.score ∧
      retrievalStageLexOnly kbLongQ (str "what is agent k about today") =
        .answered (sanitizeOutput s.qa.answer) :=
  strong_exact_match_amended kbLongQ (str "what is agent k about today")
    ⟨str "what is agent k about today", str "It is a demo.", []⟩
    (by decide) (by decide) (by decide) (by decide)

/-- With embeddings enabled, the strong-hit property fails even for an exact
question match with positive lexical score: on the one-entry base the match
normalises to lexical 1, and with cosine similarity 1/5 the fused score is
35/100 + 65/100 * 1/5 = 12/25 < 9/10, so the route proceeds to the
generation call.  This is why the amended claim C1 is restricted to
lexical-only mode. -/
theorem retrievalStage_embeddings_can_generate :
    (∃ qa ∈ kbLongQ,
      jsLower (str "what is agent k about today") = jsLower qa.question ∧
      0 < keywordScore (jsTrim (jsLower (str "what is agent k about today"))) qa) ∧
    retrievalStage kbLongQ (str "what is agent k about today")
      (some (fun _ => 1 / 5)) = .generate := by
  constructor
  · exact ⟨⟨str "what is agent k about today", str "It is a demo.", []⟩,
      by decide, by decide, by decide⟩
  · with_unfolding_all decide

/-- Claim C3: a repeated first answer triggers exactly one regeneration
(two generation calls in total); if the regenerated answer is still a
repeat — or empty — the first answer is the one returned; and no execution
makes more than two generation calls. -/
theorem anti_repetition_bound (tech : Bool) (lastBot firstRaw altRaw : Str)
    (h1 : lastBot ≠ []) (h2 : firstRaw ≠ [])
    (h3 : isHighlySimilarAnswer lastBot firstRaw = true) :
    (mainAnswerFlow tech lastBot firstRaw altRaw).genCalls = 2 ∧
    (isHighlySimilarAnswer lastBot altRaw = true ∨ altRaw = [] →
      (mainAnswerFlow tech lastBot firstRaw altRaw).answer = firstRaw) ∧
    (∀ t : Bool, ∀ l f a : Str, (mainAnswerFlow t l f a).genCalls ≤ 2) := by
  refine ⟨?_, ?_, ?_⟩
  · unfold mainAnswerFlow
    rw [if_neg h2, if_pos ⟨h1, h2, h3⟩]
    by_cases h4 : altRaw ≠ [] ∧ isHighlySimilarAnswer lastBot altRaw = false
    · rw [if_pos h4]
    · rw [if_neg h4]
  · intro h5
    unfold mainAnswerFlow
    rw [if_neg h2, if_pos ⟨h1, h2, h3⟩]
    have h4 : ¬ (altRaw ≠ [] ∧ isHighlySimilarAnswer lastBot altRaw = false) := by
      rcases h5 with h5 | h5
      · intro ⟨_, hb⟩
        rw [h5] at hb
        cases hb
      · intro ⟨ha, _⟩
        exact ha h5
    rw [if_neg h4]
  · intro t l f a
    unfold mainAnswerFlow
    by_cases hf : f = []
    · rw [if_pos hf]
      by_cases hcond : l ≠ [] ∧ (if t then fallbackTechnical else fallbackGeneral) ≠ [] ∧
          isHighlySimilarAnswer l (if t then fallbackTechnical else fallbackGeneral) = true
      · rw [if_pos hcond]
        by_cases h4 : a ≠ [] ∧ isHighlySimilarAnswer l a = false
        · rw [if_pos h4]
        · rw [if_neg h4]
      · rw [if_neg hcond]
        norm_num
    · rw [if_neg hf]
      by_cases hcond : l ≠ [] ∧ f ≠ [] ∧ isHighlySimilarAnswer l f = true
      · rw [if_pos hcond]
        by_cases h4 : a ≠ [] ∧ isHighlySimilarAnswer l a = false
        · rw [if_pos h4]
        · rw [if_neg h4]
      · rw [if_neg hcond]
        norm_num

/-- Witness instantiating `anti_repetition_bound` at a concrete input: the
previous bot message, the first answer and the regenerated answer are all
the same four-token sentence (Jaccard similarity 1 ≥ 0.8), so two calls are
made and the first answer is returned. -/
theorem anti_repetition_bound_witness :
    (mainAnswerFlow false (str "alpha beta gamma delta") (str "alpha beta gamma delta")
      (str "alpha beta gamma delta")).genCalls = 2 ∧
    (isHighlySimilarAnswer (str "alpha beta gamma delta") (str "alpha beta gamma delta") = true ∨
        (str "alpha beta gamma delta") = [] →
      (mainAnswerFlow false (str "alpha beta gamma delta") (str "alpha beta gamma delta")
        (str "alpha beta gamma delta")).answer = str "alpha beta gamma delta") ∧
    (∀ t : Bool, ∀ l f a : Str, (mainAnswerFlow t l f a).genCalls ≤ 2) :=
  anti_repetition_bound false (str "alpha beta gamma delta") (str "alpha beta gamma delta")
    (str "alpha beta gamma delta") (by decide) (by decide) (by with_unfolding_all decide)

theorem markSuggestionUsed_preserves (q : Str) (l : List Str)
    (h : l.length ≤ 5 ∧ ciDistinct l) :
    (markSuggestionUsed q l).length ≤ 5 ∧ ciDistinct (markSuggestionUsed q l) := by
  unfold markSuggestionUsed
  by_cases ht : jsTrim q = []
  · rw [if_pos ht]
    exact h
  · rw [if_neg ht]
    constructor
    · rw [List.length_take]
      exact min_le_left _ _
    · apply List.Pairwise.sublist (List.take_sublist _ _)
      rw [List.pairwise_cons]
      constructor
      · intro x hx
        have := (List.mem_filter.mp hx).2
        simp only [Bool.not_eq_true', beq_eq_false_iff_ne, ne_eq] at this
        exact fun hcon => this (hcon.symm ▸ rfl)
      · exact List.Pairwise.filter _ h.2

theorem recentAfter_inv (qs : List Str) :
    (recentAfter qs).length ≤ 5 ∧ ciDistinct (recentAfter qs) := by
  unfold recentAfter
  suffices h : ∀ l : List Str, l.length ≤ 5 ∧ ciDistinct l →
      (qs.foldl (fun l p => markSuggestionUsed p l) l).length ≤ 5 ∧
      ciDistinct (qs.foldl (fun l p => markSuggestionUsed p l) l) by
    exact h [] ⟨by simp, List.Pairwise.nil⟩
  induction qs with
  | nil => intro l h; exact h
  | cons p ps ih =>
    intro l h
    exact ih _ (markSuggestionUsed_preserves p l h)

/-- Claim C10: after any call sequence starting from the empty list, the
suggestion list never exceeds 5 entries and stays case-insensitively
duplicate-free; a call with a non-blank argument puts its trimmed phrase
first, and a call with a blank argument changes nothing. -/
theorem suggestion_rotation_invariants (qs : List Str) (q : Str) :
    (markSuggestionUsed q (recentAfter qs)).length ≤ 5 ∧
    ciDistinct (markSuggestionUsed q (recentAfter qs)) ∧
    (jsTrim q ≠ [] → (markSuggestionUsed q (recentAfter qs)).head? = some (jsTrim q)) ∧
    (jsTrim q = [] → markSuggestionUsed q (recentAfter qs) = recentAfter qs) := by
  obtain ⟨h1, h2⟩ := markSuggestionUsed_preserves q (recentAfter qs) (recentAfter_inv qs)
  refine ⟨h1, h2, ?_, ?_⟩
  · intro ht
    unfold markSuggestionUsed
    rw [if_neg ht]
    rw [List.take_succ_cons]
    rfl
  · intro ht
    unfold markSuggestionUsed
    rw [if_pos ht]

/-- Witness instantiating `suggestion_rotation_invariants` at a concrete
call sequence. -/
theorem suggestion_rotation_invariants_witness :
    (markSuggestionUsed (str "Gamma") (recentAfter [str "Alpha?", str " beta "])).length ≤ 5 ∧
    ciDistinct (markSuggestionUsed (str "Gamma") (recentAfter [str "Alpha?", str " beta "])) ∧
    (jsTrim (str "Gamma") ≠ [] →
      (markSuggestionUsed (str "Gamma")
        (recentAfter [str "Alpha?", str " beta "])).head? = some (jsTrim (str "Gamma"))) ∧
    (jsTrim (str "Gamma") = [] →
      markSuggestionUsed (str "Gamma") (recentAfter [str "Alpha?", str " beta "]) =
        recentAfter [str "Alpha?", str " beta "]) :=
  suggestion_rotation_invariants [str "Alpha?", str " beta "] (str "Gamma")

theorem replWGo_fuel_irrel (m0 : Char) (ms w : Str) :
    ∀ (f1 : ℕ) (t : Str) (f2 : ℕ), t.length ≤ f1 → t.length ≤ f2 → ∀ pre : Option Char,
      replWGo m0 ms w f1 pre t = replWGo m0 ms w f2 pre t := by
  intro f1
  induction f1 with
  | zero =>
    intro t f2 h1 _ pre
    have ht : t = [] := List.eq_nil_of_length_eq_zero (Nat.le_zero.mp h1)
    subst ht
    cases f2 <;> rfl
  | succ g1 ih =>
    intro t f2 h1 h2 pre
    cases t with
    | nil => cases f2 <;> rfl
    | cons c cs =>
      cases f2 with
      | zero => simp at h2
      | succ g2 =>
        have hc1 : cs.length ≤ g1 := Nat.succ_le_succ_iff.mp h1
        have hc2 : cs.length ≤ g2 := Nat.succ_le_succ_iff.mp h2
        simp only [replWGo]
        by_cases hm : wbMatchAt (m0 :: ms) pre (c :: cs) = true
        · rw [if_pos hm, if_pos hm]
          congr 1
          have hd : (cs.drop ms.length).length ≤ cs.length := by
            rw [List.length_drop]
            omega
          exact ih (cs.drop ms.length) g2 (le_trans hd hc1) (le_trans hd hc2) _
        · rw [if_neg hm, if_neg hm]
          congr 1
          exact ih cs g2 hc1 hc2 _

theorem replW_nil (m0 : Char) (ms w : Str) (pre : Option Char) :
    replW m0 ms w pre [] = [] := rfl

theorem replW_cons (m0 : Char) (ms w : Str) (pre : Option Char) (c : Char) (cs : Str) :
    replW m0 ms w pre (c :: cs) =
      if wbMatchAt (m0 :: ms) pre (c :: cs) then
        w ++ replW m0 ms w (some (ms.getLastD m0)) (cs.drop ms.length)
      else c :: replW m0 ms w (some c) cs := by
  show replWGo m0 ms w (cs.length + 1) pre (c :: cs) = _
  simp only [replWGo]
  by_cases hm : wbMatchAt (m0 :: ms) pre (c :: cs) = true
  · rw [if_pos hm, if_pos hm]
    congr 1
    apply replWGo_fuel_irrel
    · rw [List.length_drop]
      omega
    · exact le_refl _
  · rw [if_neg hm, if_neg hm]
    rfl

/-- Counterexample to claim C6 as stated: handling the `/query` request
`"foo bar"` — which matches the knowledge-base question `"Foo bar"`
case-insensitively — mutates the module-level `recentSuggestionPhrases`
list, so request handling does write shared state. -/
theorem stateless_counterexample : queryStateEffect stExact (str "foo bar") ≠ stExact := by
  decide

/-- Claim C6 (amended): request handlers never write the knowledge base or
the embedding records, and `/suggest` writes nothing at all; the only
shared mutable state written is the recently-used-suggestion list, which
`/query` updates exactly when the normalized query matches a
knowledge-base question case-insensitively. -/
theorem state_effects_amended (st : ServerState) (rawQ : Str) :
    (queryStateEffect st rawQ).kb = st.kb ∧
    (queryStateEffect st rawQ).kbEmbeddings = st.kbEmbeddings ∧
    suggestStateEffect st rawQ = st ∧
    (isExactKBQuestion st.kb (jsTrim (normalizeQuery (jsTrim rawQ))) = false →
      queryStateEffect st rawQ = st) ∧
    (isExactKBQuestion st.kb (jsTrim (normalizeQuery (jsTrim rawQ))) = true →
      (queryStateEffect st rawQ).recent =
        markSuggestionUsed (jsTrim (normalizeQuery (jsTrim rawQ))) st.recent) := by
  unfold queryStateEffect suggestStateEffect
  by_cases h : isExactKBQuestion st.kb (jsTrim (normalizeQuery (jsTrim rawQ))) = true
  · rw [if_pos h]
    refine ⟨rfl, rfl, rfl, ?_, ?_⟩
    · intro hcon
      rw [h] at hcon
      cases hcon
    · intro _
      rfl
  · rw [if_neg h]
    refine ⟨rfl, rfl, rfl, fun _ => rfl, ?_⟩
    intro hcon
    exact absurd hcon h

/-- Witness instantiating `state_effects_amended` at a concrete input. -/
theorem state_effects_amended_witness :
    (queryStateEffect stExact (str "foo bar")).kb = stExact.kb ∧
    (queryStateEffect stExact (str "foo bar")).kbEmbeddings = stExact.kbEmbeddings ∧
    suggestStateEffect stExact (str "foo bar") = stExact ∧
    (isExactKBQuestion stExact.kb (jsTrim (normalizeQuery (jsTrim (str "foo bar")))) = false →
      queryStateEffect stExact (str "foo bar") = stExact) ∧
    (isExactKBQuestion stExact.kb (jsTrim (normalizeQuery (jsTrim (str "foo bar")))) = true →
      (queryStateEffect stExact (str "foo bar")).recent =
        markSuggestionUsed (jsTrim (normalizeQuery (jsTrim (str "foo bar")))) stExact.recent) :=
  state_effects_amended stExact (str "foo bar")

/-- Counterexample to claim C4 as stated: `"tell me a joke stupid"` matches
the hostile detector (`stupid`), but the joke easter egg is tested *before*
the hostile branch, so the response is the generated joke, not the hostile
redirect-to-topic canned answer. -/
theorem hostile_priority_counterexample :
    hostileHit (str "tell me a joke stupid") = true ∧
    routeBranch (str "tell me a joke stupid") [] false = .joke ∧
    routeBranch (str "tell me a joke stupid") [] false ≠ .hostile := by
  refine ⟨by decide, by decide, by decide⟩

/-- Claim C4 (amended): for every query matching the hostile detector that
does not match the joke easter-egg regex, the hostile branch fires first —
regardless of whether the query also matches any later category (emotional,
off-topic, etc.). -/
theorem hostile_priority_amended (lower lastBot : Str) (tech : Bool)
    (hj : jokeHit lower = false) (hh : hostileHit lower = true) :
    routeBranch lower lastBot tech = .hostile := by
  unfold routeBranch
  rw [hj, hh]
  simp

/-- Witness instantiating `hostile_priority_amended` at a concrete input
that also matches the emotional category. -/
theorem hostile_priority_amended_witness :
    routeBranch (str "this stupid thing is frustrating") [] false = Branch.hostile :=
  hostile_priority_amended (str "this stupid thing is frustrating") [] false
    (by decide) (by decide)

theorem chunkGo_fuel_irrel :
    ∀ (f1 : ℕ) (t : Str) (f2 : ℕ), t.length ≤ f1 → t.length ≤ f2 →
      chunkGo f1 t = chunkGo f2 t := by
  intro f1
  induction f1 with
  | zero =>
    intro t f2 h1 _
    have ht : t = [] := List.eq_nil_of_length_eq_zero (Nat.le_zero.mp h1)
    subst ht
    cases f2 <;> rfl
  | succ g1 ih =>
    intro t f2 h1 h2
    cases t with
    | nil => cases f2 <;> rfl
    | cons c cs =>
      cases f2 with
      | zero => simp at h2
      | succ g2 =>
        have hc1 : cs.length ≤ g1 := Nat.succ_le_succ_iff.mp h1
        have hc2 : cs.length ≤ g2 := Nat.succ_le_succ_iff.mp h2
        have hd : (cs.dropWhile (fun d => isWordChar d == isWordChar c)).length ≤ cs.length :=
          (List.dropWhile_suffix _).sublist.length_le
        simp only [chunkGo]
        congr 1
        exact ih _ g2 (le_trans hd hc1) (le_trans hd hc2)

theorem chunkRuns_nil : chunkRuns [] = [] := rfl

theorem chunkRuns_cons (c : Char) (cs : Str) :
    chunkRuns (c :: cs) =
      (c :: cs.takeWhile (fun d => isWordChar d == isWordChar c)) ::
        chunkRuns (cs.dropWhile (fun d => isWordChar d == isWordChar c)) := by
  show chunkGo (cs.length + 1) (c :: cs) = _
  simp only [chunkGo]
  congr 1
  apply chunkGo_fuel_irrel
  · exact (List.dropWhile_suffix _).sublist.length_le
  · exact le_refl _

theorem flatten_chunkRuns (t : Str) : (chunkRuns t).flatten = t := by
  suffices h : ∀ (n : ℕ) (t : Str), t.length ≤ n → (chunkRuns t).flatten = t by
    exact h t.length t (le_refl _)
  intro n
  induction n with
  | zero =>
    intro t h
    have ht : t = [] := List.eq_nil_of_length_eq_zero (Nat.le_zero.mp h)
    subst ht
    rfl
  | succ m ih =>
    intro t h
    cases t with
    | nil => rfl
    | cons c cs =>
      rw [chunkRuns_cons, List.flatten_cons]
      have hd : (cs.dropWhile (fun d => isWordChar d == isWordChar c)).length ≤ cs.length :=
        (List.dropWhile_suffix _).sublist.length_le
      rw [ih _ (le_trans hd (Nat.succ_le_succ_iff.mp h))]
      simp [List.takeWhile_append_dropWhile]

theorem runsOK_chunkRuns_aux :
    ∀ (n : ℕ) (t : Str), t.length ≤ n → ∀ prev : Option Bool,
      (∀ b c cs, prev = some b → t = c :: cs → isWordChar c ≠ b) →
      runsOK prev (chunkRuns t) := by
  intro n
  induction n with
  | zero =>
    intro t h prev _
    have ht : t = [] := List.eq_nil_of_length_eq_zero (Nat.le_zero.mp h)
    subst ht
    trivial
  | succ m ih =>
    intro t h prev hprev
    cases t with
    | nil => trivial
    | cons c cs =>
      rw [chunkRuns_cons]
      have hstat : runStat (c :: cs.takeWhile (fun d => isWordChar d == isWordChar c)) =
          isWordChar c := rfl
      refine ⟨by simp, ?_, ?_, ?_⟩
      · intro a ha
        rw [hstat]
        rcases List.mem_cons.mp ha with rfl | ha
        · rfl
        · have := List.mem_takeWhile_imp ha
          exact eq_of_beq this
      · rw [hstat]
        intro hcon
        exact hprev (isWordChar c) c cs hcon.symm rfl rfl
      · rw [hstat]
        have hd : (cs.dropWhile (fun d => isWordChar d == isWordChar c)).length ≤ cs.length :=
          (List.dropWhile_suffix _).sublist.length_le
        apply ih _ (le_trans hd (Nat.succ_le_succ_iff.mp h))
        intro b e es hb heq
        have hbv : b = isWordChar c := (Option.some.inj hb).symm
        subst hbv
        have := List.head?_dropWhile_not (fun d => isWordChar d == isWordChar c) cs
        rw [heq] at this
        simp at this
        exact this

theorem runsOK_chunkRuns (t : Str) : runsOK none (chunkRuns t) :=
  runsOK_chunkRuns_aux t.length t (le_refl _) none (by intro b c cs hcon; cases hcon)

theorem lowerChar_word_ne (m0 c : Char) (hm : isWordChar m0 = true)
    (hc : isWordChar c = false) : (lowerChar m0 == lowerChar c) = false := by
  rw [beq_eq_false_iff_ne]
  intro heq
  have h1 := lowerChar_isWordChar m0
  rw [heq, lowerChar_isWordChar c, hc, hm] at h1
  cases h1

theorem ciStarts_false_of_nonword (m0 : Char) (ms : Str) (c : Char) (cs : Str)
    (hm : isWordChar m0 = true) (hc : isWordChar c = false) :
    ciStarts (m0 :: ms) (c :: cs) = false := by
  show ((lowerChar m0 == lowerChar c) && ciStarts ms cs) = false
  rw [lowerChar_word_ne m0 c hm hc]
  rfl

theorem replW_pre (m0 : Char) (ms w : Str) (t : Str) (p1 p2 : Option Char)
    (h : okBefore p1 = okBefore p2) : replW m0 ms w p1 t = replW m0 ms w p2 t := by
  cases t with
  | nil => rfl
  | cons c cs =>
    rw [replW_cons, replW_cons]
    have hm : wbMatchAt (m0 :: ms) p1 (c :: cs) = wbMatchAt (m0 :: ms) p2 (c :: cs) := by
      unfold wbMatchAt
      rw [h]
    rw [hm]

theorem replW_pre_headNonWord (m0 : Char) (ms w : Str) (t : Str)
    (hm0 : isWordChar m0 = true) (ht : headNonWord t) (pre : Option Char) :
    replW m0 ms w pre t = replW m0 ms w none t := by
  cases t with
  | nil => rfl
  | cons c cs =>
    have hc : isWordChar c = false := ht
    rw [replW_cons, replW_cons]
    have hfail : ∀ p : Option Char, wbMatchAt (m0 :: ms) p (c :: cs) = false := by
      intro p
      unfold wbMatchAt
      rw [ciStarts_false_of_nonword m0 ms c cs hm0 hc]
      rfl
    rw [hfail pre, hfail none]

theorem replW_skip_nonword (m0 : Char) (ms w : Str) (hm0 : isWordChar m0 = true) :
    ∀ r : Str, (∀ a ∈ r, isWordChar a = false) → ∀ (rest : Str) (pre : Option Char),
      okBefore pre = true →
      replW m0 ms w pre (r ++ rest) = r ++ replW m0 ms w none rest := by
  intro r
  induction r with
  | nil =>
    intro _ rest pre hpre
    rw [List.nil_append, List.nil_append]
    exact replW_pre m0 ms w rest pre none hpre
  | cons d ds ih =>
    intro hall rest pre _
    have hd : isWordChar d = false := hall d (List.mem_cons_self d ds)
    rw [List.cons_append, replW_cons]
    have : wbMatchAt (m0 :: ms) pre (d :: (ds ++ rest)) = false := by
      unfold wbMatchAt
      rw [ciStarts_false_of_nonword m0 ms d (ds ++ rest) hm0 hd]
      rfl
    rw [this, if_neg Bool.false_ne_true]
    rw [ih (fun a ha => hall a (List.mem_cons_of_mem d ha)) rest (some d)
      (by show (!(isWordChar d)) = true; rw [hd]; rfl)]
    rfl

theorem replW_skip_word (m0 : Char) (ms w : Str) (hm0 : isWordChar m0 = true) :
    ∀ r : Str, (∀ a ∈ r, isWordChar a = true) → ∀ (rest : Str) (pre : Option Char),
      okBefore pre = false → headNonWord rest →
      replW m0 ms w pre (r ++ rest) = r ++ replW m0 ms w none rest := by
  intro r
  induction r with
  | nil =>
    intro _ rest pre _ hrest
    rw [List.nil_append, List.nil_append]
    exact replW_pre_headNonWord m0 ms w rest hm0 hrest pre
  | cons d ds ih =>
    intro hall rest pre hpre hrest
    have hd : isWordChar d = true := hall d (List.mem_cons_self d ds)
    rw [List.cons_append, replW_cons]
    have : wbMatchAt (m0 :: ms) pre (d :: (ds ++ rest)) = false := by
      unfold wbMatchAt
      rw [hpre]
      simp
    rw [this, if_neg Bool.false_ne_true]
    rw [ih (fun a ha => hall a (List.mem_cons_of_mem d ha)) rest (some d)
      (by show (!(isWordChar d)) = false; rw [hd]; rfl) hrest]
    rfl

theorem ciEqStr_length : ∀ r m : Str, ciEqStr r m = true → r.length = m.length := by
  intro r
  induction r with
  | nil =>
    intro m h
    cases m with
    | nil => rfl
    | cons b bs => cases h
  | cons a as ih =>
    intro m h
    cases m with
    | nil => cases h
    | cons b bs =>
      have h2 : ciEqStr as bs = true := by
        have hh := h
        unfold ciEqStr at hh
        rw [Bool.and_eq_true] at hh
        exact hh.2
      simp [ih bs h2]

theorem ciStarts_of_ciEq : ∀ r m : Str, ciEqStr r m = true → ∀ rest : Str,
    ciStarts m (r ++ rest) = true := by
  intro r
  induction r with
  | nil =>
    intro m h rest
    cases m with
    | nil => rfl
    | cons b bs => cases h
  | cons a as ih =>
    intro m h rest
    cases m with
    | nil => cases h
    | cons b bs =>
      unfold ciEqStr at h
      rw [Bool.and_eq_true] at h
      obtain ⟨h1, h2⟩ := h
      show ((lowerChar b == lowerChar a) && ciStarts bs (as ++ rest)) = true
      rw [ih bs h2 rest]
      have hba : (lowerChar b == lowerChar a) = true := by
        rw [beq_iff_eq] at h1 ⊢
        exact h1.symm
      rw [hba]
      rfl

theorem allWord_of_ciEq : ∀ r m : Str, (∀ a ∈ m, isWordChar a = true) →
    ciEqStr r m = true → ∀ a ∈ r, isWordChar a = true := by
  intro r
  induction r with
  | nil => intro m _ _ a ha; cases ha
  | cons a as ih =>
    intro m hm h x hx
    cases m with
    | nil => cases h
    | cons b bs =>
      unfold ciEqStr at h
      rw [Bool.and_eq_true] at h
      obtain ⟨h1, h2⟩ := h
      rcases List.mem_cons.mp hx with rfl | hx
      · rw [beq_iff_eq] at h1
        have hb : isWordChar b = true := hm b (List.mem_cons_self b bs)
        have hx2 := lowerChar_isWordChar x
        rw [h1, lowerChar_isWordChar b, hb] at hx2
        exact hx2.symm
      · exact ih bs (fun y hy => hm y (List.mem_cons_of_mem b hy)) h2 x hx

theorem okAfter_of_headNonWord (s : Str) (h : headNonWord s) : okAfter s = true := by
  cases s with
  | nil => rfl
  | cons c cs =>
    show (!(isWordChar c)) = true
    have hc : isWordChar c = false := h
    rw [hc]
    rfl

theorem nb_no_match : ∀ (m run : Str), (∀ a ∈ m, isWordChar a = true) →
    (∀ a ∈ run, isWordChar a = true) → ciEqStr run m = false → ∀ rest : Str,
    headNonWord rest →
    ciStarts m (run ++ rest) = false ∨ okAfter ((run ++ rest).drop m.length) = false := by
  intro m
  induction m with
  | nil =>
    intro run _ hrun hne rest _
    cases run with
    | nil => cases hne
    | cons r0 rs =>
      right
      simp only [List.length_nil, List.drop_zero]
      show (!(isWordChar r0)) = false
      rw [hrun r0 (List.mem_cons_self r0 rs)]
      rfl
  | cons a as ih =>
    intro run hm hrun hne rest hrest
    cases run with
    | nil =>
      left
      rw [List.nil_append]
      cases rest with
      | nil => rfl
      | cons e es =>
        exact ciStarts_false_of_nonword a as e es (hm a (List.mem_cons_self a as)) hrest
    | cons r0 rs =>
      by_cases h1 : (lowerChar a == lowerChar r0) = true
      · have hne2 : ciEqStr rs as = false := by
          unfold ciEqStr at hne
          have h1s : (lowerChar r0 == lowerChar a) = true := by
            rw [beq_iff_eq] at h1 ⊢
            exact h1.symm
          rw [h1s] at hne
          simpa using hne
        rcases ih rs (fun y hy => hm y (List.mem_cons_of_mem a hy))
            (fun y hy => hrun y (List.mem_cons_of_mem r0 hy)) hne2 rest hrest with h | h
        · left
          show ((lowerChar a == lowerChar r0) && ciStarts as (rs ++ rest)) = false
          rw [h]
          simp
        · right
          rw [List.cons_append, List.length_cons, List.drop_succ_cons]
          exact h
      · left
        show ((lowerChar a == lowerChar r0) && ciStarts as (rs ++ rest)) = false
        rw [Bool.not_eq_true] at h1
        rw [h1]
        rfl

theorem mem_takeWhile_pred {α : Type} (p : α → Bool) :
    ∀ (l : List α) (x : α), x ∈ l.takeWhile p → p x = true := by
  intro l
  induction l with
  | nil => intro x hx; cases hx
  | cons a as ih =>
    intro x hx
    rw [List.takeWhile_cons] at hx
    by_cases hpa : p a = true
    · rw [if_pos hpa] at hx
      rcases List.mem_cons.mp hx with rfl | hx
      · exact hpa
      · exact ih x hx
    · rw [if_neg hpa] at hx
      cases hx

theorem replW_chunk (m0 : Char) (ms w : Str)
    (hmw : ∀ a ∈ (m0 :: ms), isWordChar a = true) :
    ∀ t : Str, replW m0 ms w none t =
      ((chunkRuns t).map (runMap (m0 :: ms) w)).flatten := by
  have hm0 : isWordChar m0 = true := hmw m0 (List.mem_cons_self m0 ms)
  suffices h : ∀ (n : ℕ) (t : Str), t.length ≤ n → replW m0 ms w none t =
      ((chunkRuns t).map (runMap (m0 :: ms) w)).flatten by
    exact fun t => h t.length t (le_refl _)
  intro n
  induction n with
  | zero =>
    intro t h
    have ht : t = [] := List.eq_nil_of_length_eq_zero (Nat.le_zero.mp h)
    subst ht
    rfl
  | succ m ihn =>
    intro t h
    cases t with
    | nil => rfl
    | cons c cs =>
      rw [chunkRuns_cons, List.map_cons, List.flatten_cons]
      generalize hg1 : cs.takeWhile (fun d => isWordChar d == isWordChar c) = tw
      generalize hg2 : cs.dropWhile (fun d => isWordChar d == isWordChar c) = rest
      have hcs : tw ++ rest = cs := by
        rw [← hg1, ← hg2]
        exact List.takeWhile_append_dropWhile _ _
      have hrest_len : rest.length ≤ cs.length := by
        rw [← hg2]
        exact (List.dropWhile_suffix _).sublist.length_le
      have hrest_m : rest.length ≤ m :=
        le_trans hrest_len (Nat.succ_le_succ_iff.mp h)
      have htw : ∀ a ∈ tw, isWordChar a = isWordChar c := by
        intro a ha
        rw [← hg1] at ha
        have hb : (isWordChar a == isWordChar c) = true :=
          mem_takeWhile_pred (fun d => isWordChar d == isWordChar c) cs a ha
        exact eq_of_beq hb
      by_cases hc : isWordChar c = true
      · -- a word run
        have hrest_head : headNonWord rest := by
          cases hrest : rest with
          | nil => trivial
          | cons e es =>
            show isWordChar e = false
            have hh := List.head?_dropWhile_not (fun d => isWordChar d == isWordChar c) cs
            rw [hg2, hrest] at hh
            have hh2 : (isWordChar e == isWordChar c) = false := hh
            rw [beq_eq_false_iff_ne] at hh2
            cases hq : isWordChar e
            · rfl
            · rw [hq, hc] at hh2
              exact absurd rfl hh2
        have hrun : ∀ a ∈ (c :: tw), isWordChar a = true := by
          intro a ha
          rcases List.mem_cons.mp ha with rfl | ha
          · exact hc
          · rw [htw a ha, hc]
        by_cases he : ciEqStr (c :: tw) (m0 :: ms) = true
        · have hlen : (c :: tw).length = (m0 :: ms).length := ciEqStr_length _ _ he
          have htwlen : tw.length = ms.length := by
            simpa using hlen
          rw [replW_cons]
          have hmatch : wbMatchAt (m0 :: ms) none (c :: cs) = true := by
            unfold wbMatchAt
            have hcs2 : c :: cs = (c :: tw) ++ rest := by
              rw [List.cons_append, hcs]
            rw [hcs2, ciStarts_of_ciEq _ _ he rest, List.drop_left' hlen,
              okAfter_of_headNonWord rest hrest_head]
            rfl
          rw [if_pos hmatch]
          have hdrop : cs.drop ms.length = rest := by
            rw [← hcs, List.drop_left' htwlen]
          rw [hdrop, replW_pre_headNonWord m0 ms w rest hm0 hrest_head, ihn rest hrest_m]
          rw [runMap, if_pos he]
        · rw [Bool.not_eq_true] at he
          rw [replW_cons]
          have hnm : wbMatchAt (m0 :: ms) none (c :: cs) = false := by
            unfold wbMatchAt
            have hcs2 : c :: cs = (c :: tw) ++ rest := by
              rw [List.cons_append, hcs]
            rw [hcs2]
            rcases nb_no_match (m0 :: ms) (c :: tw) hmw hrun he rest hrest_head with hh | hh
            · rw [hh]
              rfl
            · rw [hh]
              simp
          rw [if_neg (by rw [hnm]; exact Bool.false_ne_true)]
          have htw2 : ∀ a ∈ tw, isWordChar a = true := by
            intro a ha
            rw [htw a ha, hc]
          rw [show cs = tw ++ rest from hcs.symm]
          rw [replW_skip_word m0 ms w hm0 tw htw2 rest (some c)
            (by show (!(isWordChar c)) = false; rw [hc]; rfl) hrest_head]
          rw [ihn rest hrest_m, runMap, if_neg (by rw [he]; exact Bool.false_ne_true)]
          rfl
      · -- a non-word run
        rw [Bool.not_eq_true] at hc
        have hall : ∀ a ∈ (c :: tw), isWordChar a = false := by
          intro a ha
          rcases List.mem_cons.mp ha with rfl | ha
          · exact hc
          · rw [htw a ha, hc]
        have hcs2 : c :: cs = (c :: tw) ++ rest := by
          rw [List.cons_append, hcs]
        rw [show (c :: cs : Str) = (c :: tw) ++ rest from hcs2]
        rw [replW_skip_nonword m0 ms w hm0 (c :: tw) hall rest none rfl]
        rw [ihn rest hrest_m]
        have hne : ciEqStr (c :: tw) (m0 :: ms) = false := by
          show ((lowerChar c == lowerChar m0) && ciEqStr tw ms) = false
          have hx : (lowerChar c == lowerChar m0) = false := by
            rw [beq_eq_false_iff_ne]
            intro heq
            have h1 := lowerChar_isWordChar c
            rw [heq, lowerChar_isWordChar m0, hm0, hc] at h1
            cases h1
          rw [hx]
          rfl
        rw [runMap, if_neg (by rw [hne]; exact Bool.false_ne_true)]

theorem runStat_allWord (r : Str) (hne : r ≠ []) (hw : ∀ a ∈ r, isWordChar a = true) :
    runStat r = true := by
  cases r with
  | nil => exact absurd rfl hne
  | cons c cs => exact hw c (List.mem_cons_self c cs)

theorem runMap_preserves (m w : Str) (hm : ∀ a ∈ m, isWordChar a = true) (hwne : w ≠ [])
    (hw : ∀ a ∈ w, isWordChar a = true) (r : Str) (hrne : r ≠ [])
    (hhom : ∀ a ∈ r, isWordChar a = runStat r) :
    runMap m w r ≠ [] ∧ (∀ a ∈ runMap m w r, isWordChar a = runStat r) ∧
      runStat (runMap m w r) = runStat r := by
  unfold runMap
  by_cases he : ciEqStr r m = true
  · rw [if_pos he]
    have hrw : ∀ a ∈ r, isWordChar a = true := allWord_of_ciEq r m hm he
    have hstat : runStat r = true := runStat_allWord r hrne hrw
    refine ⟨hwne, fun a ha => ?_, ?_⟩
    · rw [hw a ha, hstat]
    · rw [runStat_allWord w hwne hw, hstat]
  · rw [if_neg he]
    exact ⟨hrne, hhom, rfl⟩

theorem applyTypos_preserves (tbl : List (Str × Str))
    (hok : ∀ p ∈ tbl, p.1 ≠ [] ∧ (∀ a ∈ p.1, isWordChar a = true) ∧ p.2 ≠ [] ∧
      (∀ a ∈ p.2, isWordChar a = true)) :
    ∀ r : Str, r ≠ [] → (∀ a ∈ r, isWordChar a = runStat r) →
      applyTypos tbl r ≠ [] ∧ (∀ a ∈ applyTypos tbl r, isWordChar a = runStat r) ∧
        runStat (applyTypos tbl r) = runStat r := by
  induction tbl with
  | nil => exact fun r hr hh => ⟨hr, hh, rfl⟩
  | cons p tbl' ih =>
    intro r hr hh
    obtain ⟨hp1ne, hp1w, hp2ne, hp2w⟩ := hok p (List.mem_cons_self p tbl')
    obtain ⟨q1, q2, q3⟩ := runMap_preserves p.1 p.2 hp1w hp2ne hp2w r hr hh
    have happ : applyTypos (p :: tbl') r = applyTypos tbl' (runMap p.1 p.2 r) := rfl
    have hok' : ∀ q ∈ tbl', q.1 ≠ [] ∧ (∀ a ∈ q.1, isWordChar a = true) ∧ q.2 ≠ [] ∧
        (∀ a ∈ q.2, isWordChar a = true) :=
      fun q hq => hok q (List.mem_cons_of_mem p hq)
    obtain ⟨w1, w2, w3⟩ := ih hok' (runMap p.1 p.2 r) q1
      (fun a ha => by rw [q2 a ha, ← q3])
    rw [happ]
    exact ⟨w1, fun a ha => by rw [w2 a ha, q3], by rw [w3, q3]⟩

theorem runsOK_map (f : Str → Str)
    (hf : ∀ r : Str, r ≠ [] → (∀ a ∈ r, isWordChar a = runStat r) →
      f r ≠ [] ∧ (∀ a ∈ f r, isWordChar a = runStat r) ∧ runStat (f r) = runStat r) :
    ∀ (rs : List Str) (prev : Option Bool), runsOK prev rs → runsOK prev (rs.map f) := by
  intro rs
  induction rs with
  | nil => intro prev _; trivial
  | cons r rs' ih =>
    intro prev hok
    obtain ⟨hne, hhom, hprev, hrec⟩ := hok
    obtain ⟨q1, q2, q3⟩ := hf r hne hhom
    rw [List.map_cons]
    refine ⟨q1, fun a ha => by rw [q2 a ha, q3], by rw [q3]; exact hprev, ?_⟩
    rw [q3]
    exact ih (some (runStat r)) hrec

theorem chunkRuns_flatten : ∀ (rs : List Str) (prev : Option Bool), runsOK prev rs →
    chunkRuns rs.flatten = rs := by
  intro rs
  induction rs with
  | nil => intro prev _; rfl
  | cons r rs' ih =>
    intro prev hok
    obtain ⟨hne, hhom, _, hrec⟩ := hok
    cases r with
    | nil => exact absurd rfl hne
    | cons c r' =>
      have hstat : runStat (c :: r') = isWordChar c := rfl
      have hr' : ∀ a ∈ r', (fun d => isWordChar d == isWordChar c) a = true := by
        intro a ha
        have := hhom a (List.mem_cons_of_mem c ha)
        rw [hstat] at this
        exact beq_iff_eq.mpr this
      have hflat : ((c :: r') :: rs').flatten = c :: (r' ++ rs'.flatten) := rfl
      rw [hflat, chunkRuns_cons]
      have htk : (r' ++ rs'.flatten).takeWhile (fun d => isWordChar d == isWordChar c) = r' ∧
          (r' ++ rs'.flatten).dropWhile (fun d => isWordChar d == isWordChar c) =
            rs'.flatten := by
        have hstop : rs'.flatten.takeWhile (fun d => isWordChar d == isWordChar c) = [] ∧
            rs'.flatten.dropWhile (fun d => isWordChar d == isWordChar c) = rs'.flatten := by
          cases rs' with
          | nil => exact ⟨rfl, rfl⟩
          | cons r2 rs'' =>
            obtain ⟨hne2, hhom2, hprev2, _⟩ := hrec
            cases r2 with
            | nil => exact absurd rfl hne2
            | cons e r2' =>
              have he : isWordChar e = runStat (e :: r2') := hhom2 e (List.mem_cons_self e r2')
              have hne3 : isWordChar e ≠ isWordChar c := by
                rw [he]
                intro hcon
                apply hprev2
                rw [hcon, hstat]
              have hflat2 : ((e :: r2') :: rs'').flatten = e :: (r2' ++ rs''.flatten) := rfl
              rw [hflat2]
              constructor
              · rw [List.takeWhile_cons_of_neg]
                simp only [beq_iff_eq]
                exact hne3
              · rw [List.dropWhile_cons_of_neg]
                simp only [beq_iff_eq]
                exact hne3
        constructor
        · rw [List.takeWhile_append_of_pos hr', hstop.1, List.append_nil]
        · rw [List.dropWhile_append_of_pos hr', hstop.2]
      rw [htk.1, htk.2, ih (some (runStat (c :: r'))) hrec]

theorem typoTable_ok : ∀ p ∈ typoTable, p.1 ≠ [] ∧ (∀ a ∈ p.1, isWordChar a = true) ∧
    p.2 ≠ [] ∧ (∀ a ∈ p.2, isWordChar a = true) := by decide

theorem fold_replace_flatten (tbl : List (Str × Str))
    (hok : ∀ p ∈ tbl, p.1 ≠ [] ∧ (∀ a ∈ p.1, isWordChar a = true) ∧ p.2 ≠ [] ∧
      (∀ a ∈ p.2, isWordChar a = true)) :
    ∀ rs : List Str, runsOK none rs →
      tbl.foldl (fun acc p => replaceWordCI p.1 p.2 acc) rs.flatten =
        (rs.map (applyTypos tbl)).flatten := by
  induction tbl with
  | nil =>
    intro rs _
    show rs.flatten = (rs.map (applyTypos [])).flatten
    have hmap : rs.map (applyTypos []) = rs := by
      have hid : ∀ r ∈ rs, applyTypos [] r = r := fun r _ => rfl
      rw [List.map_congr_left hid]
      exact List.map_id rs
    rw [hmap]
  | cons p tbl' ih =>
    intro rs hrs
    rw [List.foldl_cons]
    obtain ⟨hp1ne, hp1w, hp2ne, hp2w⟩ := hok p (List.mem_cons_self p tbl')
    obtain ⟨m0, ms, hm⟩ : ∃ m0 ms, p.1 = m0 :: ms := by
      cases hp : p.1 with
      | nil => exact absurd hp hp1ne
      | cons a b => exact ⟨a, b, rfl⟩
    have hrw : replaceWordCI p.1 p.2 rs.flatten =
        ((chunkRuns rs.flatten).map (runMap p.1 p.2)).flatten := by
      rw [hm]
      show replW m0 ms p.2 none rs.flatten = _
      rw [replW_chunk m0 ms p.2 (by rw [← hm]; exact hp1w)]
    rw [hrw, chunkRuns_flatten rs none hrs]
    have hok' : ∀ q ∈ tbl', q.1 ≠ [] ∧ (∀ a ∈ q.1, isWordChar a = true) ∧ q.2 ≠ [] ∧
        (∀ a ∈ q.2, isWordChar a = true) :=
      fun q hq => hok q (List.mem_cons_of_mem p hq)
    have hok1 : runsOK none (rs.map (runMap p.1 p.2)) := by
      apply runsOK_map (runMap p.1 p.2) (runMap_preserves p.1 p.2 hp1w hp2ne hp2w) rs none hrs
    rw [ih hok' (rs.map (runMap p.1 p.2)) hok1]
    rw [List.map_map]
    rfl

theorem normalizeQuery_flatten (t : Str) (ht : t ≠ []) :
    normalizeQuery t = ((chunkRuns t).map (applyTypos typoTable)).flatten := by
  unfold normalizeQuery
  rw [if_neg ht]
  conv_lhs => rw [← flatten_chunkRuns t]
  exact fold_replace_flatten typoTable typoTable_ok (chunkRuns t) (runsOK_chunkRuns t)

theorem applyTypos_mem : ∀ (tbl : List (Str × Str)) (r : Str),
    applyTypos tbl r = r ∨ applyTypos tbl r ∈ tbl.map (fun p => p.2) := by
  intro tbl
  induction tbl with
  | nil => intro r; left; rfl
  | cons p tbl' ih =>
    intro r
    have happ : applyTypos (p :: tbl') r = applyTypos tbl' (runMap p.1 p.2 r) := rfl
    rw [happ]
    unfold runMap
    by_cases he : ciEqStr r p.1 = true
    · rw [if_pos he]
      rcases ih p.2 with h | h
      · right
        rw [h, List.map_cons]
        exact List.mem_cons_self _ _
      · right
        rw [List.map_cons]
        exact List.mem_cons_of_mem _ h
    · rw [if_neg he]
      rcases ih r with h | h
      · left
        exact h
      · right
        rw [List.map_cons]
        exact List.mem_cons_of_mem _ h

set_option maxRecDepth 4000 in
theorem applyTypos_fixed_words :
    ∀ v ∈ typoTable.map (fun p => p.2), applyTypos typoTable v = v := by decide

theorem applyTypos_idem (r : Str) :
    applyTypos typoTable (applyTypos typoTable r) = applyTypos typoTable r := by
  rcases applyTypos_mem typoTable r with h | h
  · rw [h]
    exact h
  · exact applyTypos_fixed_words _ h

/-- Claim C8: `normalizeQuery` is idempotent, and empty input is returned
unchanged (the function is total, so it never throws; `undefined` input is
the same guard `if (!text) return text`). -/
theorem normalizeQuery_idempotent (x : Str) :
    normalizeQuery (normalizeQuery x) = normalizeQuery x ∧
    (x = [] → normalizeQuery x = x) := by
  constructor
  · by_cases hx : x = []
    · subst hx
      rfl
    · rw [normalizeQuery_flatten x hx]
      by_cases hn : ((chunkRuns x).map (applyTypos typoTable)).flatten = []
      · rw [hn]
        rfl
      · rw [normalizeQuery_flatten _ hn]
        have hok : runsOK none ((chunkRuns x).map (applyTypos typoTable)) :=
          runsOK_map (applyTypos typoTable)
            (applyTypos_preserves typoTable typoTable_ok) (chunkRuns x) none
            (runsOK_chunkRuns x)
        rw [chunkRuns_flatten ((chunkRuns x).map (applyTypos typoTable)) none hok,
          List.map_map]
        have hmapeq : (chunkRuns x).map (applyTypos typoTable ∘ applyTypos typoTable) =
            (chunkRuns x).map (applyTypos typoTable) := by
          apply List.map_congr_left
          intro r _
          simp only [Function.comp_apply]
          exact applyTypos_idem r
        rw [hmapeq]
  · intro hx
    subst hx
    rfl

/-- Witness: the idempotency instantiated at the empty string discharges
the conditional conjunct concretely. -/
theorem normalizeQuery_idempotent_witness :
    normalizeQuery (normalizeQuery []) = normalizeQuery [] ∧
    (([] : Str) = [] → normalizeQuery [] = []) :=
  normalizeQuery_idempotent []

/-- Dropping a while-prefix never lengthens a list. -/
theorem length_dropWhile_le (p : Char → Bool) (l : Str) :
    (l.dropWhile p).length ≤ l.length :=
  (List.dropWhile_suffix p).sublist.length_le

/-- With enough fuel the scan result does not depend on the fuel. -/
theorem scanGo_fuel (step : Char → Str → Option (Str × Str))
    (hb : StepBound step) :
    ∀ n m t, t.length ≤ n → t.length ≤ m → scanGo step n t = scanGo step m t := by
  intro n
  induction n with
  | zero =>
    intro m t hn _
    have : t = [] := List.eq_nil_of_length_eq_zero (Nat.le_zero.mp hn)
    subst this
    cases m <;> rfl
  | succ n ih =>
    intro m t hn hm
    cases t with
    | nil => cases m <;> rfl
    | cons c cs =>
      cases m with
      | zero => exact absurd hm (by simp)
      | succ m =>
        show scanGo step (n + 1) (c :: cs) = scanGo step (m + 1) (c :: cs)
        simp only [scanGo]
        cases hstep : step c cs with
        | none =>
          have h1 : cs.length ≤ n := (by simpa using hn)
          have h2 : cs.length ≤ m := (by simpa using hm)
          show c :: scanGo step n cs = c :: scanGo step m cs
          rw [ih m cs h1 h2]
        | some pr =>
          obtain ⟨out, rest⟩ := pr
          have hr := hb c cs out rest hstep
          have h1 : rest.length ≤ n :=
            le_trans hr (by simpa using hn)
          have h2 : rest.length ≤ m :=
            le_trans hr (by simpa using hm)
          show out ++ scanGo step n rest = out ++ scanGo step m rest
          rw [ih m rest h1 h2]

/-- The scan of the empty string. -/
theorem scan_nil (step : Char → Str → Option (Str × Str)) : scan step [] = [] := rfl

/-- Scan equation at a non-matching position: copy one character. -/
theorem scan_cons_none (step : Char → Str → Option (Str × Str)) (c : Char) (cs : Str)
    (h : step c cs = none) : scan step (c :: cs) = c :: scan step cs := by
  show scanGo step (cs.length + 1) (c :: cs) = c :: scanGo step cs.length cs
  simp only [scanGo, h]

/-- Scan equation at a matching position: emit the replacement and resume
after the match. -/
theorem scan_cons_some (step : Char → Str → Option (Str × Str))
    (hb : StepBound step) (c : Char) (cs out rest : Str)
    (h : step c cs = some (out, rest)) :
    scan step (c :: cs) = out ++ scan step rest := by
  show scanGo step (cs.length + 1) (c :: cs) = out ++ scanGo step rest.length rest
  simp only [scanGo, h]
  show out ++ scanGo step cs.length rest = out ++ scanGo step rest.length rest
  rw [scanGo_fuel step hb cs.length rest.length rest (hb c cs out rest h) le_rfl]

/-- Bound for the carriage-return step. -/
theorem p1Step_bound : StepBound p1Step := by
  intro c cs out rest h
  unfold p1Step at h
  split at h
  · split at h
    · rename_i d rest1
      split at h
      · obtain ⟨h1, h2⟩ := Prod.mk.injEq .. ▸ Option.some.inj h
        subst h2
        simp
      · exact absurd h (by simp)
    · exact absurd h (by simp)
  · exact absurd h (by simp)

/-- Bound for the bullet step. -/
theorem p2Step_bound : StepBound p2Step := by
  intro c cs out rest h
  unfold p2Step at h
  split at h
  · exact absurd h (by simp)
  · split at h
    · exact absurd h (by simp)
    · rename_i b rest2 hdw
      split at h
      · obtain ⟨h1, h2⟩ := Prod.mk.injEq .. ▸ Option.some.inj h
        subst h2
        have h3 : rest2.length + 1 ≤ cs.length := by
          have := length_dropWhile_le jsWs cs
          rw [hdw] at this
          simpa using this
        exact le_trans (length_dropWhile_le jsWs rest2) (le_trans (Nat.le_succ _) h3)
      · exact absurd h (by simp)

/-- Bound for the numbered-list step. -/
theorem p3Step_bound : StepBound p3Step := by
  intro c cs out rest h
  unfold p3Step at h
  split at h
  · exact absurd h (by simp)
  · split at h
    · rename_i d r2 hdd
      split at h
      · obtain ⟨h1, h2⟩ := Prod.mk.injEq .. ▸ Option.some.inj h
        subst h2
        have h3 : r2.length + 1 ≤ (cs.dropWhile jsWs).length := by
          have := length_dropWhile_le Char.isDigit (cs.dropWhile jsWs)
          rw [hdd] at this
          simpa using this
        exact le_trans (length_dropWhile_le jsWs r2)
          (le_trans (Nat.le_succ _) (le_trans h3 (length_dropWhile_le jsWs cs)))
      · exact absurd h (by simp)
    · exact absurd h (by simp)

/-- Bound for the sentence-break step. -/
theorem p4Step_bound : StepBound p4Step := by
  intro c cs out rest h
  unfold p4Step at h
  split at h
  · obtain ⟨h1, h2⟩ := Prod.mk.injEq .. ▸ Option.some.inj h
    subst h2
    exact length_dropWhile_le jsWs cs
  · exact absurd h (by simp)

/-- Bound for the blank-line step. -/
theorem p5Step_bound : StepBound p5Step := by
  intro c cs out rest h
  unfold p5Step at h
  split at h
  · obtain ⟨h1, h2⟩ := Prod.mk.injEq .. ▸ Option.some.inj h
    subst h2
    exact length_dropWhile_le _ cs
  · exact absurd h (by simp)

/-- Whitespace characters do not end sentences. -/
theorem ws_not_sentEnd (c : Char) (h : jsWs c = true) : sentEnd c = false := by
  simp only [jsWs, Bool.or_eq_true, beq_iff_eq] at h
  rcases h with ((((rfl | rfl) | rfl) | rfl) | rfl) | rfl <;> rfl

/-- Capital letters are not whitespace. -/
theorem upper_not_ws (c : Char) (h : isUpperAZ c = true) : jsWs c = false := by
  by_contra hws
  rw [Bool.not_eq_false] at hws
  simp only [jsWs, Bool.or_eq_true, beq_iff_eq] at hws
  rcases hws with ((((rfl | rfl) | rfl) | rfl) | rfl) | rfl <;> exact absurd h (by decide)

/-- The head of a `dropWhile` residue falsifies the predicate. -/
theorem dropWhile_head_false {α : Type} (p : α → Bool) (l : List α) (e : α)
    (v : List α) (h : l.dropWhile p = e :: v) : p e = false := by
  have := List.head?_dropWhile_not p l
  rw [h] at this
  simpa using this

/-- Taking while over an all-satisfying prefix passes through it. -/
theorem takeWhile_append_all {α : Type} (p : α → Bool) (a b : List α)
    (h : ∀ c ∈ a, p c = true) : (a ++ b).takeWhile p = a ++ b.takeWhile p := by
  induction a with
  | nil => rfl
  | cons x a2 ih =>
    have hx : p x = true := h x (List.mem_cons_self x _)
    rw [List.cons_append, List.takeWhile_cons, if_pos hx, List.cons_append,
      ih (fun c hc => h c (List.mem_cons_of_mem x hc))]

/-- Dropping while over an all-satisfying prefix removes it. -/
theorem dropWhile_append_all {α : Type} (p : α → Bool) (a b : List α)
    (h : ∀ c ∈ a, p c = true) : (a ++ b).dropWhile p = b.dropWhile p := by
  induction a with
  | nil => rfl
  | cons x a2 ih =>
    have hx : p x = true := h x (List.mem_cons_self x _)
    rw [List.cons_append, List.dropWhile_cons, if_pos hx,
      ih (fun c hc => h c (List.mem_cons_of_mem x hc))]

/-- Dropping while stops inside the first list when its residue is non-empty. -/
theorem dropWhile_append_ne_nil {α : Type} (p : α → Bool) :
    ∀ (a : List α) (b : List α) (e : α) (v : List α), a.dropWhile p = e :: v →
    (a ++ b).dropWhile p = e :: v ++ b := by
  intro a
  induction a with
  | nil => intro b e v h; exact absurd h (by simp)
  | cons x a2 ih =>
    intro b e v h
    rw [List.dropWhile_cons] at h
    by_cases hx : p x = true
    · rw [if_pos hx] at h
      rw [List.cons_append, List.dropWhile_cons, if_pos hx, ih b e v h]
    · rw [if_neg hx] at h
      obtain ⟨rfl, rfl⟩ := List.cons.injEq .. ▸ h
      rw [List.cons_append, List.dropWhile_cons, if_neg hx]

/-- Taking while stops inside the first list when its residue is non-empty. -/
theorem takeWhile_append_ne_nil {α : Type} (p : α → Bool) :
    ∀ (a : List α) (b : List α) (e : α) (v : List α), a.dropWhile p = e :: v →
    (a ++ b).takeWhile p = a.takeWhile p := by
  intro a
  induction a with
  | nil => intro b e v h; exact absurd h (by simp)
  | cons x a2 ih =>
    intro b e v h
    rw [List.dropWhile_cons] at h
    by_cases hx : p x = true
    · rw [if_pos hx] at h
      rw [List.cons_append, List.takeWhile_cons, if_pos hx, List.takeWhile_cons,
        if_pos hx, ih b e v h]
    · rw [List.cons_append, List.takeWhile_cons, if_neg hx, List.takeWhile_cons,
        if_neg hx]

/-- Appending on the right never shortens the while-prefix. -/
theorem length_takeWhile_le_append {α : Type} (p : α → Bool) :
    ∀ (a b : List α), (a.takeWhile p).length ≤ ((a ++ b).takeWhile p).length := by
  intro a
  induction a with
  | nil => intro b; simp
  | cons x a2 ih =>
    intro b
    rw [List.cons_append, List.takeWhile_cons, List.takeWhile_cons]
    by_cases hx : p x = true
    · rw [if_pos hx, if_pos hx]
      exact Nat.succ_le_succ (ih b)
    · rw [if_neg hx, if_neg hx]

/-- Taking while over an all-falsifying list yields nothing. -/
theorem takeWhile_nil_of_all {α : Type} (p : α → Bool) (w : List α)
    (h : ∀ c ∈ w, p c = false) : w.takeWhile p = [] := by
  cases w with
  | nil => rfl
  | cons e w2 =>
    rw [List.takeWhile_cons, if_neg (by simp [h e (List.mem_cons_self e _)])]

/-- A scan through characters at which the step never matches copies them. -/
theorem scan_append_copy (step : Char → Str → Option (Str × Str)) :
    ∀ (a u : Str), (∀ c ∈ a, ∀ cs, step c cs = none) →
    scan step (a ++ u) = a ++ scan step u := by
  intro a
  induction a with
  | nil => intro u _; rfl
  | cons x a2 ih =>
    intro u h
    rw [List.cons_append, scan_cons_none step x (a2 ++ u) (h x (List.mem_cons_self x _) _),
      ih u (fun c hc => h c (List.mem_cons_of_mem x hc)), List.cons_append]

/-- If every match emits its own first character first, the scan preserves the
head of the string. -/
theorem scan_head (step : Char → Str → Option (Str × Str)) (hb : StepBound step)
    (hout : ∀ c cs out rest, step c cs = some (out, rest) → out.head? = some c) :
    ∀ t : Str, (scan step t).head? = t.head? := by
  intro t
  cases t with
  | nil => rfl
  | cons c cs =>
    cases hstep : step c cs with
    | none => rw [scan_cons_none step c cs hstep]; rfl
    | some pr =>
      obtain ⟨out, rest⟩ := pr
      rw [scan_cons_some step hb c cs out rest hstep]
      have hh := hout c cs out rest hstep
      cases out with
      | nil => exact absurd hh (by simp)
      | cons o os =>
        have : o = c := by simpa using hh
        subst this
        rfl

/-- If every match only emits its first character or newlines and resumes on
a suffix, scanning only adds newlines to the character set. -/
theorem scan_mem (step : Char → Str → Option (Str × Str)) (hb : StepBound step)
    (hstep : ∀ c cs out rest, step c cs = some (out, rest) →
      (∀ x ∈ out, x = c ∨ x = '\n') ∧ rest <:+ cs) :
    ∀ t x, x ∈ scan step t → x ∈ t ∨ x = '\n' := by
  suffices h : ∀ n t, t.length ≤ n → ∀ x, x ∈ scan step t → x ∈ t ∨ x = '\n' by
    intro t x hx
    exact h t.length t le_rfl x hx
  intro n
  induction n with
  | zero =>
    intro t ht x hx
    have : t = [] := List.eq_nil_of_length_eq_zero (Nat.le_zero.mp ht)
    subst this
    exact absurd hx (by simp [scan_nil])
  | succ n ih =>
    intro t ht x hx
    cases t with
    | nil => exact absurd hx (by simp [scan_nil])
    | cons c cs =>
      have hcs : cs.length ≤ n := by simpa using ht
      cases hstep2 : step c cs with
      | none =>
        rw [scan_cons_none step c cs hstep2] at hx
        rcases List.mem_cons.mp hx with rfl | hx2
        · exact Or.inl (List.mem_cons_self _ _)
        · rcases ih cs hcs x hx2 with h1 | h1
          · exact Or.inl (List.mem_cons_of_mem c h1)
          · exact Or.inr h1
      | some pr =>
        obtain ⟨out, rest⟩ := pr
        obtain ⟨hout, hsuf⟩ := hstep c cs out rest hstep2
        rw [scan_cons_some step hb c cs out rest hstep2] at hx
        rcases List.mem_append.mp hx with hx2 | hx2
        · rcases hout x hx2 with rfl | rfl
          · exact Or.inl (List.mem_cons_self _ _)
          · exact Or.inr rfl
        · have hlen : rest.length ≤ n := le_trans hsuf.sublist.length_le hcs
          rcases ih rest hlen x hx2 with h1 | h1
          · exact Or.inl (List.mem_cons_of_mem c (hsuf.sublist.subset h1))
          · exact Or.inr h1

/-- The sentence-break step in terms of its match condition, negative case. -/
theorem p4Step_eq_none (c : Char) (cs : Str) (h : q4fire c cs = false) :
    p4Step c cs = none := by
  simp [p4Step, h]

/-- The sentence-break step in terms of its match condition, positive case. -/
theorem p4Step_eq_some (c : Char) (cs : Str) (h : q4fire c cs = true) :
    p4Step c cs = some ([c, '\n'], cs.dropWhile jsWs) := by
  simp [p4Step, h]

/-- The blank-line step in terms of its match condition, negative case. -/
theorem p5Step_eq_none (c : Char) (cs : Str) (h : p5fire c cs = false) :
    p5Step c cs = none := by
  simp [p5Step, h]

/-- The blank-line step in terms of its match condition, positive case. -/
theorem p5Step_eq_some (c : Char) (cs : Str) (h : p5fire c cs = true) :
    p5Step c cs = some (['\n', '\n'], cs.dropWhile (fun d => d == '\n')) := by
  simp [p5Step, h]

/-- The sentence-break pass on the empty string. -/
theorem p4_nil : p4 [] = [] := rfl

/-- The sentence-break pass copies a non-matching position. -/
theorem p4_cons_none (c : Char) (cs : Str) (h : q4fire c cs = false) :
    p4 (c :: cs) = c :: p4 cs :=
  scan_cons_none p4Step c cs (p4Step_eq_none c cs h)

/-- The sentence-break pass rewrites a matching position. -/
theorem p4_cons_some (c : Char) (cs : Str) (h : q4fire c cs = true) :
    p4 (c :: cs) = c :: '\n' :: p4 (cs.dropWhile jsWs) :=
  scan_cons_some p4Step p4Step_bound c cs [c, '\n'] (cs.dropWhile jsWs)
    (p4Step_eq_some c cs h)

/-- The blank-line pass on the empty string. -/
theorem p5_nil : p5 [] = [] := rfl

/-- The blank-line pass copies a non-matching position. -/
theorem p5_cons_none (c : Char) (cs : Str) (h : p5fire c cs = false) :
    p5 (c :: cs) = c :: p5 cs :=
  scan_cons_none p5Step c cs (p5Step_eq_none c cs h)

/-- The blank-line pass rewrites a matching position. -/
theorem p5_cons_some (c : Char) (cs : Str) (h : p5fire c cs = true) :
    p5 (c :: cs) = '\n' :: '\n' :: p5 (cs.dropWhile (fun d => d == '\n')) :=
  scan_cons_some p5Step p5Step_bound c cs ['\n', '\n']
    (cs.dropWhile (fun d => d == '\n')) (p5Step_eq_some c cs h)

/-- The sentence-break pass preserves the first character. -/
theorem p4_head (t : Str) : (p4 t).head? = t.head? := by
  refine scan_head p4Step p4Step_bound ?_ t
  intro c cs out rest h
  unfold p4Step at h
  split at h
  · obtain ⟨h1, _⟩ := Prod.mk.injEq .. ▸ Option.some.inj h
    subst h1
    rfl
  · exact absurd h (by simp)

/-- The blank-line pass preserves the first character. -/
theorem p5_head (t : Str) : (p5 t).head? = t.head? := by
  refine scan_head p5Step p5Step_bound ?_ t
  intro c cs out rest h
  unfold p5Step at h
  split at h
  · rename_i hf
    obtain ⟨h1, _⟩ := Prod.mk.injEq .. ▸ Option.some.inj h
    subst h1
    have : c = '\n' := by
      unfold p5fire at hf
      rw [Bool.and_eq_true] at hf
      exact beq_iff_eq.mp hf.1
    rw [this]
    rfl
  · exact absurd h (by simp)

/-- Unfolding of the sentence-break invariant at a cons cell. -/
theorem q4ok_cons (c : Char) (cs : Str) :
    q4ok (c :: cs) = true ↔
      ((q4fire c cs = true → cs.takeWhile jsWs = ['\n']) ∧ q4ok cs = true) := by
  show ((!q4fire c cs || (cs.takeWhile jsWs == ['\n'])) && q4ok cs) = true ↔ _
  rw [Bool.and_eq_true, Bool.or_eq_true, Bool.not_eq_true']
  constructor
  · rintro ⟨h1 | h1, h2⟩
    · exact ⟨fun hf => absurd hf (by simp [h1]), h2⟩
    · exact ⟨fun hf => by simpa [beq_iff_eq] using h1, h2⟩
  · rintro ⟨h1, h2⟩
    refine ⟨?_, h2⟩
    by_cases hf : q4fire c cs = true
    · exact Or.inr (by simpa [beq_iff_eq] using h1 hf)
    · exact Or.inl (Bool.not_eq_true _ ▸ hf)

/-- Unfolding of the blank-line invariant at a cons cell. -/
theorem noTriple_cons (c : Char) (cs : Str) :
    noTriple (c :: cs) = true ↔ (p5fire c cs = false ∧ noTriple cs = true) := by
  show (!p5fire c cs && noTriple cs) = true ↔ _
  rw [Bool.and_eq_true, Bool.not_eq_true']

/-- The sentence-break invariant descends to the right part of an append. -/
theorem q4ok_append_right : ∀ a b : Str, q4ok (a ++ b) = true → q4ok b = true := by
  intro a
  induction a with
  | nil => intro b h; exact h
  | cons x a2 ih =>
    intro b h
    exact ih b ((q4ok_cons x (a2 ++ b)).mp h).2

/-- The sentence-break invariant descends to suffixes. -/
theorem q4ok_suffix (a b : Str) (h : a <:+ b) (hq : q4ok b = true) :
    q4ok a = true := by
  obtain ⟨t, rfl⟩ := h
  exact q4ok_append_right t a hq

/-- The sentence-break invariant descends to the left part of an append: a
match opportunity inside the left part is unchanged by the right part. -/
theorem q4ok_append_left : ∀ a b : Str, q4ok (a ++ b) = true → q4ok a = true := by
  intro a
  induction a with
  | nil => intro b _; rfl
  | cons x a2 ih =>
    intro b h
    obtain ⟨h1, h2⟩ := (q4ok_cons x (a2 ++ b)).mp h
    refine (q4ok_cons x a2).mpr ⟨?_, ih b h2⟩
    intro hf
    have hD : ∃ d v, a2.dropWhile jsWs = d :: v := by
      unfold q4fire at hf
      rw [Bool.and_eq_true] at hf
      cases hDW : a2.dropWhile jsWs with
      | nil => rw [hDW] at hf; exact absurd hf.2 (by simp)
      | cons d v => exact ⟨d, v, rfl⟩
    obtain ⟨d, v, hD⟩ := hD
    have hfb : q4fire x (a2 ++ b) = true := by
      unfold q4fire at hf ⊢
      rw [takeWhile_append_ne_nil jsWs a2 b d v hD,
        dropWhile_append_ne_nil jsWs a2 b d v hD]
      rw [hD] at hf
      exact hf
    have := h1 hfb
    rw [takeWhile_append_ne_nil jsWs a2 b d v hD] at this
    exact this

/-- The blank-line invariant descends to the right part of an append. -/
theorem noTriple_append_right : ∀ a b : Str, noTriple (a ++ b) = true →
    noTriple b = true := by
  intro a
  induction a with
  | nil => intro b h; exact h
  | cons x a2 ih =>
    intro b h
    exact ih b ((noTriple_cons x (a2 ++ b)).mp h).2

/-- The blank-line invariant descends to suffixes. -/
theorem noTriple_suffix (a b : Str) (h : a <:+ b) (hq : noTriple b = true) :
    noTriple a = true := by
  obtain ⟨t, rfl⟩ := h
  exact noTriple_append_right t a hq

/-- The blank-line invariant descends to the left part of an append: a
newline run inside the left part is no longer than in the whole. -/
theorem noTriple_append_left : ∀ a b : Str, noTriple (a ++ b) = true →
    noTriple a = true := by
  intro a
  induction a with
  | nil => intro b _; rfl
  | cons x a2 ih =>
    intro b h
    obtain ⟨h1, h2⟩ := (noTriple_cons x (a2 ++ b)).mp h
    refine (noTriple_cons x a2).mpr ⟨?_, ih b h2⟩
    cases hp : p5fire x a2 with
    | false => rfl
    | true =>
      exfalso
      unfold p5fire at hp
      rw [Bool.and_eq_true, decide_eq_true_iff] at hp
      have hfb : p5fire x (a2 ++ b) = true := by
        unfold p5fire
        rw [Bool.and_eq_true, decide_eq_true_iff]
        exact ⟨hp.1, le_trans hp.2 (length_takeWhile_le_append _ a2 b)⟩
      rw [hfb] at h1
      exact absurd h1 (by simp)

/-- No sentence-break match at a non-sentence-ending character. -/
theorem q4fire_false_of_not_sentEnd (c : Char) (w : Str) (h : sentEnd c = false) :
    q4fire c w = false := by
  unfold q4fire
  rw [h]
  simp

/-- No sentence-break match without following whitespace. -/
theorem q4fire_false_of_run_nil (c : Char) (w : Str) (h : w.takeWhile jsWs = []) :
    q4fire c w = false := by
  unfold q4fire
  rw [h]
  simp

/-- No sentence-break match when no capital follows the whitespace run. -/
theorem q4fire_false_of_drop (c : Char) (w : Str)
    (h : ∀ e v, w.dropWhile jsWs = e :: v → isUpperAZ e = false) :
    q4fire c w = false := by
  unfold q4fire
  cases hD : w.dropWhile jsWs with
  | nil => simp
  | cons e v =>
    show (sentEnd c && !(w.takeWhile jsWs).isEmpty && isUpperAZ e) = false
    rw [h e v hD]
    simp

/-- A string whose head is known is a cons cell. -/
theorem exists_cons_of_head (t : Str) (d : Char) (h : t.head? = some d) :
    ∃ zs, t = d :: zs := by
  cases t with
  | nil => exact absurd h (by simp)
  | cons e zs =>
    have : e = d := by simpa using h
    subst this
    exact ⟨zs, rfl⟩

/-- Taking whitespace stops immediately at a non-whitespace head. -/
theorem takeWhile_ws_cons_nonws (d : Char) (zs : Str) (h : jsWs d = false) :
    (d :: zs).takeWhile jsWs = [] := by
  rw [List.takeWhile_cons, if_neg (by simp [h])]

/-- The sentence-break pass ignores whitespace characters. -/
theorem p4_ws_append (a u : Str) (h : ∀ c ∈ a, jsWs c = true) :
    p4 (a ++ u) = a ++ p4 u := by
  refine scan_append_copy p4Step a u ?_
  intro c hc cs
  exact p4Step_eq_none c cs (q4fire_false_of_not_sentEnd c cs (ws_not_sentEnd c (h c hc)))

/-- Text satisfying the sentence-break invariant is a fixed point of the
sentence-break pass. -/
theorem p4_id : ∀ t : Str, q4ok t = true → p4 t = t := by
  suffices h : ∀ n t, t.length ≤ n → q4ok t = true → p4 t = t by
    intro t hq
    exact h t.length t le_rfl hq
  intro n
  induction n with
  | zero =>
    intro t ht _
    have : t = [] := List.eq_nil_of_length_eq_zero (Nat.le_zero.mp ht)
    subst this
    rfl
  | succ n ih =>
    intro t ht hq
    cases t with
    | nil => rfl
    | cons c cs =>
      have hcs : cs.length ≤ n := by simpa using ht
      obtain ⟨h1, h2⟩ := (q4ok_cons c cs).mp hq
      cases hf : q4fire c cs with
      | false => rw [p4_cons_none c cs hf, ih cs hcs h2]
      | true =>
        have hT := h1 hf
        rw [p4_cons_some c cs hf]
        have hsplit : cs = '\n' :: cs.dropWhile jsWs := by
          conv_lhs => rw [← List.takeWhile_append_dropWhile jsWs cs]
          rw [hT]
          rfl
        have hq2 : q4ok (cs.dropWhile jsWs) = true :=
          q4ok_suffix _ cs (List.dropWhile_suffix jsWs) h2
        have hlen : (cs.dropWhile jsWs).length ≤ n :=
          le_trans (length_dropWhile_le jsWs cs) hcs
        rw [ih (cs.dropWhile jsWs) hlen hq2]
        conv_rhs => rw [hsplit]

/-- The sentence-break pass establishes its own invariant: after one pass,
every remaining match opportunity already has a single-newline run. -/
theorem p4_establishes_q4ok : ∀ t : Str, q4ok (p4 t) = true := by
  suffices h : ∀ n t, t.length ≤ n → q4ok (p4 t) = true by
    intro t
    exact h t.length t le_rfl
  intro n
  induction n with
  | zero =>
    intro t ht
    have : t = [] := List.eq_nil_of_length_eq_zero (Nat.le_zero.mp ht)
    subst this
    rfl
  | succ n ih =>
    intro t ht
    cases t with
    | nil => rfl
    | cons c cs =>
      have hcs : cs.length ≤ n := by simpa using ht
      cases hf : q4fire c cs with
      | true =>
        rw [p4_cons_some c cs hf]
        have hD : ∃ d v, cs.dropWhile jsWs = d :: v ∧ isUpperAZ d = true := by
          unfold q4fire at hf
          rw [Bool.and_eq_true] at hf
          cases hDW : cs.dropWhile jsWs with
          | nil =>
            rw [hDW] at hf
            exact absurd hf.2 (by simp)
          | cons d v =>
            refine ⟨d, v, rfl, ?_⟩
            rw [hDW] at hf
            exact hf.2
        obtain ⟨d, v, hD, hU⟩ := hD
        have hrest_head : (p4 (cs.dropWhile jsWs)).head? = some d := by
          rw [p4_head, hD]
          rfl
        obtain ⟨zs, hzs⟩ := exists_cons_of_head _ d hrest_head
        have hws_d : jsWs d = false := upper_not_ws d hU
        refine (q4ok_cons c ('\n' :: p4 (cs.dropWhile jsWs))).mpr ⟨?_, ?_⟩
        · intro _
          rw [List.takeWhile_cons, if_pos (by rfl), hzs,
            takeWhile_ws_cons_nonws d zs hws_d]
        · refine (q4ok_cons '\n' (p4 (cs.dropWhile jsWs))).mpr ⟨?_, ?_⟩
          · intro hff
            rw [q4fire_false_of_not_sentEnd '\n' _ rfl] at hff
            exact absurd hff (by simp)
          · exact ih (cs.dropWhile jsWs) (le_trans (length_dropWhile_le jsWs cs) hcs)
      | false =>
        rw [p4_cons_none c cs hf]
        refine (q4ok_cons c (p4 cs)).mpr ⟨?_, ih cs hcs⟩
        intro hff
        exfalso
        by_cases hse : sentEnd c = true
        · cases hTW : cs.takeWhile jsWs with
          | nil =>
            cases hcs0 : cs with
            | nil =>
              rw [hcs0] at hff
              rw [q4fire_false_of_run_nil c (p4 []) rfl] at hff
              exact absurd hff (by simp)
            | cons e cs2 =>
              have hwse : jsWs e = false := by
                rw [hcs0, List.takeWhile_cons] at hTW
                by_cases hwe : jsWs e = true
                · rw [if_pos hwe] at hTW
                  exact absurd hTW (by simp)
                · exact Bool.not_eq_true _ ▸ hwe
              have hhead : (p4 cs).head? = some e := by
                rw [p4_head, hcs0]
                rfl
              obtain ⟨zs, hzs⟩ := exists_cons_of_head _ e hhead
              rw [hzs, q4fire_false_of_run_nil c (e :: zs)
                (takeWhile_ws_cons_nonws e zs hwse)] at hff
              exact absurd hff (by simp)
          | cons w ws1 =>
            have hTall : ∀ x ∈ cs.takeWhile jsWs, jsWs x = true :=
              fun x hx => mem_takeWhile_pred jsWs cs x hx
            have hsplit : cs = cs.takeWhile jsWs ++ cs.dropWhile jsWs :=
              (List.takeWhile_append_dropWhile jsWs cs).symm
            have hpcs : p4 cs = cs.takeWhile jsWs ++ p4 (cs.dropWhile jsWs) := by
              conv_lhs => rw [hsplit]
              exact p4_ws_append _ _ hTall
            cases hD : cs.dropWhile jsWs with
            | nil =>
              rw [hD] at hpcs
              have hp40 : p4 ([] : Str) = [] := rfl
              rw [hpcs, hp40, List.append_nil] at hff
              have : q4fire c (cs.takeWhile jsWs) = false := by
                have := q4fire_false_of_drop c (cs.takeWhile jsWs) ?_
                · exact this
                · intro e v hev
                  exfalso
                  have : jsWs e = true := by
                    have hsuf : e :: v <:+ cs.takeWhile jsWs :=
                      hev ▸ List.dropWhile_suffix jsWs
                    exact hTall e (hsuf.sublist.subset (List.mem_cons_self e v))
                  rw [dropWhile_head_false jsWs _ e v hev] at this
                  exact absurd this (by simp)
              rw [this] at hff
              exact absurd hff (by simp)
            | cons d v =>
              have hUd : isUpperAZ d = false := by
                unfold q4fire at hf
                rw [hTW, hD] at hf
                have : (sentEnd c && !(w :: ws1).isEmpty) = true := by
                  rw [hse]
                  rfl
                rw [Bool.and_eq_false_iff] at hf
                rcases hf with hf | hf
                · rw [hf] at this
                  exact absurd this (by simp)
                · exact hf
              have hws_d : jsWs d = false := dropWhile_head_false jsWs cs d v hD
              have hhead : (p4 (cs.dropWhile jsWs)).head? = some d := by
                rw [p4_head, hD]
                rfl
              obtain ⟨zs, hzs⟩ := exists_cons_of_head _ d hhead
              rw [hpcs, hzs] at hff
              have hfire_false : q4fire c (cs.takeWhile jsWs ++ d :: zs) = false := by
                refine q4fire_false_of_drop c _ ?_
                intro e v2 hev
                rw [dropWhile_append_all jsWs _ _ hTall, List.dropWhile_cons,
                  if_neg (by simp [hws_d])] at hev
                obtain ⟨he, _⟩ := List.cons.injEq .. ▸ hev
                rw [he] at hUd
                exact hUd
              rw [hfire_false] at hff
              exact absurd hff (by simp)
        · rw [q4fire_false_of_not_sentEnd c (p4 cs) (Bool.not_eq_true _ ▸ hse)] at hff
          exact absurd hff (by simp)

/-- No blank-line match at a non-newline character. -/
theorem p5fire_false_of_ne (c : Char) (w : Str) (h : (c == '\n') = false) :
    p5fire c w = false := by
  unfold p5fire
  rw [h]
  simp

/-- No blank-line match when at most one newline follows. -/
theorem p5fire_false_of_short (c : Char) (w : Str)
    (h : (w.takeWhile (fun d => d == '\n')).length ≤ 1) : p5fire c w = false := by
  unfold p5fire
  have : decide (2 ≤ (w.takeWhile (fun d => d == '\n')).length) = false :=
    decide_eq_false (by omega)
  rw [this]
  simp

/-- Text satisfying the blank-line invariant is a fixed point of the
blank-line pass. -/
theorem p5_id : ∀ t : Str, noTriple t = true → p5 t = t := by
  intro t
  induction t with
  | nil => intro _; rfl
  | cons c cs ih =>
    intro h
    obtain ⟨h1, h2⟩ := (noTriple_cons c cs).mp h
    rw [p5_cons_none c cs h1, ih h2]

/-- An empty leading newline run stays empty through the blank-line pass. -/
theorem takeWhile_nl_p5_nil (cs : Str)
    (h : cs.takeWhile (fun d => d == '\n') = []) :
    (p5 cs).takeWhile (fun d => d == '\n') = [] := by
  cases cs with
  | nil => rfl
  | cons e cs2 =>
    have hne : (e == '\n') = false := by
      rw [List.takeWhile_cons] at h
      by_cases he : (e == '\n') = true
      · rw [if_pos he] at h
        exact absurd h (by simp)
      · exact Bool.not_eq_true _ ▸ he
    have hhead : (p5 (e :: cs2)).head? = some e := by
      rw [p5_head]
      rfl
    obtain ⟨zs, hzs⟩ := exists_cons_of_head _ e hhead
    rw [hzs, List.takeWhile_cons, if_neg (by simp [hne])]

/-- A leading newline run of length at most one stays that short through the
blank-line pass. -/
theorem takeWhile_nl_p5_short (cs : Str)
    (h : (cs.takeWhile (fun d => d == '\n')).length ≤ 1) :
    ((p5 cs).takeWhile (fun d => d == '\n')).length ≤ 1 := by
  cases hT : cs.takeWhile (fun d => d == '\n') with
  | nil =>
    rw [takeWhile_nl_p5_nil cs hT]
    simp
  | cons x xs =>
    have hx : x = '\n' := by
      have := mem_takeWhile_pred (fun d => d == '\n') cs x
        (hT ▸ List.mem_cons_self x xs)
      simpa using this
    have hxs : xs = [] := by
      rw [hT] at h
      simp at h
      exact h
    subst hx
    subst hxs
    have hsplit : cs = '\n' :: cs.dropWhile (fun d => d == '\n') := by
      conv_lhs => rw [← List.takeWhile_append_dropWhile (fun d => d == '\n') cs]
      rw [hT]
      rfl
    have hT2 : (cs.dropWhile (fun d => d == '\n')).takeWhile
        (fun d => d == '\n') = [] := by
      cases hR : cs.dropWhile (fun d => d == '\n') with
      | nil => rfl
      | cons e zs =>
        rw [List.takeWhile_cons,
          if_neg (by simp [dropWhile_head_false _ cs e zs hR])]
    have hf2 : p5fire '\n' (cs.dropWhile (fun d => d == '\n')) = false :=
      p5fire_false_of_short _ _ (by rw [hT2]; simp)
    conv_lhs => rw [hsplit]
    rw [p5_cons_none _ _ hf2, List.takeWhile_cons, if_pos (by rfl),
      takeWhile_nl_p5_nil _ hT2]
    simp

/-- The blank-line pass establishes its own invariant: its output has no
three consecutive newlines. -/
theorem p5_establishes_noTriple : ∀ t : Str, noTriple (p5 t) = true := by
  suffices h : ∀ n t, t.length ≤ n → noTriple (p5 t) = true by
    intro t
    exact h t.length t le_rfl
  intro n
  induction n with
  | zero =>
    intro t ht
    have : t = [] := List.eq_nil_of_length_eq_zero (Nat.le_zero.mp ht)
    subst this
    rfl
  | succ n ih =>
    intro t ht
    cases t with
    | nil => rfl
    | cons c cs =>
      have hcs : cs.length ≤ n := by simpa using ht
      cases hf : p5fire c cs with
      | true =>
        rw [p5_cons_some c cs hf]
        have hT0 : (cs.dropWhile (fun d => d == '\n')).takeWhile
            (fun d => d == '\n') = [] := by
          cases hR : cs.dropWhile (fun d => d == '\n') with
          | nil => rfl
          | cons e zs =>
            rw [List.takeWhile_cons,
              if_neg (by simp [dropWhile_head_false _ cs e zs hR])]
        have hTW : (p5 (cs.dropWhile (fun d => d == '\n'))).takeWhile
            (fun d => d == '\n') = [] := takeWhile_nl_p5_nil _ hT0
        have hlen : (cs.dropWhile (fun d => d == '\n')).length ≤ n :=
          le_trans (length_dropWhile_le _ cs) hcs
        refine (noTriple_cons _ _).mpr ⟨?_, (noTriple_cons _ _).mpr ⟨?_, ih _ hlen⟩⟩
        · refine p5fire_false_of_short _ _ ?_
          rw [List.takeWhile_cons, if_pos (by rfl), hTW]
          simp
        · refine p5fire_false_of_short _ _ ?_
          rw [hTW]
          simp
      | false =>
        rw [p5_cons_none c cs hf]
        refine (noTriple_cons _ _).mpr ⟨?_, ih cs hcs⟩
        by_cases hc : (c == '\n') = true
        · have hrun : (cs.takeWhile (fun d => d == '\n')).length ≤ 1 := by
            unfold p5fire at hf
            rw [hc] at hf
            simp at hf
            omega
          exact p5fire_false_of_short _ _ (takeWhile_nl_p5_short cs hrun)
        · exact p5fire_false_of_ne _ _ (Bool.not_eq_true _ ▸ hc)

/-- Dropping while distributes over an append whose right part starts with a
failing element (or is empty). -/
theorem dropWhile_append_head_false {α : Type} (p : α → Bool) :
    ∀ (a b : List α), (∀ e v, b = e :: v → p e = false) →
    (a ++ b).dropWhile p = a.dropWhile p ++ b := by
  intro a
  induction a with
  | nil =>
    intro b hb
    cases b with
    | nil => rfl
    | cons e v =>
      show (e :: v).dropWhile p = (e :: v)
      rw [List.dropWhile_cons, if_neg (by simp [hb e v rfl])]
  | cons x a2 ih =>
    intro b hb
    rw [List.cons_append, List.dropWhile_cons, List.dropWhile_cons]
    by_cases hx : p x = true
    · rw [if_pos hx, if_pos hx, ih b hb]
    · rw [if_neg hx, if_neg hx, List.cons_append]

/-- Non-whitespace characters are not newlines. -/
theorem ne_nl_of_not_ws (e : Char) (h : jsWs e = false) : (e == '\n') = false := by
  by_cases he : (e == '\n') = true
  · exfalso
    have : e = '\n' := beq_iff_eq.mp he
    subst this
    exact absurd h (by decide)
  · exact Bool.not_eq_true _ ▸ he

/-- When the sentence-break condition fails despite sentence-ending
punctuation and following whitespace, the character after the run is not a
capital. -/
theorem q4fire_cap_false (c : Char) (cs : Str) (hf : q4fire c cs = false)
    (hse : sentEnd c = true) (w : Char) (ws1 : Str)
    (hTW : cs.takeWhile jsWs = w :: ws1) (d : Char) (v : Str)
    (hD : cs.dropWhile jsWs = d :: v) : isUpperAZ d = false := by
  unfold q4fire at hf
  rw [hTW, hD] at hf
  have hAB : (sentEnd c && !(w :: ws1).isEmpty) = true := by
    rw [hse]
    rfl
  rw [Bool.and_eq_false_iff] at hf
  rcases hf with hf | hf
  · rw [hf] at hAB
    exact absurd hAB (by simp)
  · exact hf

/-- The blank-line pass maps an all-whitespace prefix (followed by a
non-whitespace character or the end) to an all-whitespace prefix. -/
theorem p5_ws_append : ∀ (n : ℕ) (R u : Str), R.length ≤ n →
    (∀ c ∈ R, jsWs c = true) → (∀ e v, u = e :: v → jsWs e = false) →
    ∃ R2, (∀ c ∈ R2, jsWs c = true) ∧ p5 (R ++ u) = R2 ++ p5 u := by
  intro n
  induction n with
  | zero =>
    intro R u hR _ _
    have : R = [] := List.eq_nil_of_length_eq_zero (Nat.le_zero.mp hR)
    subst this
    exact ⟨[], by simp, rfl⟩
  | succ n ih =>
    intro R u hR hall hu
    cases R with
    | nil => exact ⟨[], by simp, rfl⟩
    | cons c R1 =>
      have hR1 : R1.length ≤ n := by simpa using hR
      have hall1 : ∀ x ∈ R1, jsWs x = true :=
        fun x hx => hall x (List.mem_cons_of_mem c hx)
      cases hf : p5fire c (R1 ++ u) with
      | false =>
        rw [List.cons_append, p5_cons_none c (R1 ++ u) hf]
        obtain ⟨R2, hA, hB⟩ := ih R1 u hR1 hall1 hu
        refine ⟨c :: R2, ?_, by rw [hB, List.cons_append]⟩
        intro x hx
        rcases List.mem_cons.mp hx with rfl | hx2
        · exact hall x (List.mem_cons_self x R1)
        · exact hA x hx2
      | true =>
        have hu2 : ∀ e v, u = e :: v → (e == '\n') = false :=
          fun e v hev => ne_nl_of_not_ws e (hu e v hev)
        have hrest : (R1 ++ u).dropWhile (fun d => d == '\n') =
            R1.dropWhile (fun d => d == '\n') ++ u :=
          dropWhile_append_head_false _ R1 u hu2
        rw [List.cons_append, p5_cons_some c (R1 ++ u) hf, hrest]
        have hdall : ∀ x ∈ R1.dropWhile (fun d => d == '\n'), jsWs x = true :=
          fun x hx => hall1 x ((List.dropWhile_suffix _).sublist.subset hx)
        have hdlen : (R1.dropWhile (fun d => d == '\n')).length ≤ n :=
          le_trans (length_dropWhile_le _ R1) hR1
        obtain ⟨R2, hA, hB⟩ := ih (R1.dropWhile (fun d => d == '\n')) u hdlen hdall hu
        refine ⟨'\n' :: '\n' :: R2, ?_, by rw [hB]; rfl⟩
        intro x hx
        rcases List.mem_cons.mp hx with rfl | hx2
        · decide
        · rcases List.mem_cons.mp hx2 with rfl | hx3
          · decide
          · exact hA x hx3

/-- The blank-line pass preserves the sentence-break invariant: it only
shortens interior newline runs and never changes the character after a
whitespace run. -/
theorem p5_preserves_q4ok : ∀ t : Str, q4ok t = true → q4ok (p5 t) = true := by
  suffices h : ∀ n t, t.length ≤ n → q4ok t = true → q4ok (p5 t) = true by
    intro t hq
    exact h t.length t le_rfl hq
  intro n
  induction n with
  | zero =>
    intro t ht _
    have : t = [] := List.eq_nil_of_length_eq_zero (Nat.le_zero.mp ht)
    subst this
    rfl
  | succ n ih =>
    intro t ht hq
    cases t with
    | nil => rfl
    | cons c cs =>
      have hcs : cs.length ≤ n := by simpa using ht
      obtain ⟨h1, h2⟩ := (q4ok_cons c cs).mp hq
      cases hf : p5fire c cs with
      | true =>
        rw [p5_cons_some c cs hf]
        have hqrest : q4ok (cs.dropWhile (fun d => d == '\n')) = true :=
          q4ok_suffix _ cs (List.dropWhile_suffix _) h2
        have hlen : (cs.dropWhile (fun d => d == '\n')).length ≤ n :=
          le_trans (length_dropWhile_le _ cs) hcs
        refine (q4ok_cons _ _).mpr ⟨?_, (q4ok_cons _ _).mpr ⟨?_, ih _ hlen hqrest⟩⟩
        · intro hff
          rw [q4fire_false_of_not_sentEnd '\n' _ rfl] at hff
          exact absurd hff (by simp)
        · intro hff
          rw [q4fire_false_of_not_sentEnd '\n' _ rfl] at hff
          exact absurd hff (by simp)
      | false =>
        rw [p5_cons_none c cs hf]
        refine (q4ok_cons _ _).mpr ⟨?_, ih cs hcs h2⟩
        intro hff
        by_cases hse : sentEnd c = true
        · cases hTW : cs.takeWhile jsWs with
          | nil =>
            exfalso
            cases hcs0 : cs with
            | nil =>
              rw [hcs0] at hff
              rw [q4fire_false_of_run_nil c (p5 []) rfl] at hff
              exact absurd hff (by simp)
            | cons e cs2 =>
              have hwse : jsWs e = false := by
                rw [hcs0, List.takeWhile_cons] at hTW
                by_cases hwe : jsWs e = true
                · rw [if_pos hwe] at hTW
                  exact absurd hTW (by simp)
                · exact Bool.not_eq_true _ ▸ hwe
              have hhead : (p5 cs).head? = some e := by
                rw [p5_head, hcs0]
                rfl
              obtain ⟨zs, hzs⟩ := exists_cons_of_head _ e hhead
              rw [hzs, q4fire_false_of_run_nil c (e :: zs)
                (takeWhile_ws_cons_nonws e zs hwse)] at hff
              exact absurd hff (by simp)
          | cons w ws1 =>
            by_cases hcap : q4fire c cs = true
            · have hT := h1 hcap
              have hsplit : cs = '\n' :: cs.dropWhile jsWs := by
                conv_lhs => rw [← List.takeWhile_append_dropWhile jsWs cs]
                rw [hT]
                rfl
              have hD0 : (cs.dropWhile jsWs).takeWhile (fun d => d == '\n') = [] := by
                cases hR : cs.dropWhile jsWs with
                | nil => rfl
                | cons e zs =>
                  rw [List.takeWhile_cons, if_neg (by
                    simp [ne_nl_of_not_ws e (dropWhile_head_false jsWs cs e zs hR)])]
              have hp5 : p5 cs = '\n' :: p5 (cs.dropWhile jsWs) := by
                conv_lhs => rw [hsplit]
                exact p5_cons_none '\n' _
                  (p5fire_false_of_short '\n' _ (by rw [hD0]; simp))
              rw [hp5, List.takeWhile_cons, if_pos (by rfl)]
              have hD1 : (p5 (cs.dropWhile jsWs)).takeWhile jsWs = [] := by
                cases hR : cs.dropWhile jsWs with
                | nil => rfl
                | cons e zs =>
                  have hwse : jsWs e = false := dropWhile_head_false jsWs cs e zs hR
                  have hhead : (p5 (e :: zs)).head? = some e := by
                    rw [p5_head]
                    rfl
                  obtain ⟨zs2, hzs2⟩ := exists_cons_of_head _ e hhead
                  rw [hzs2]
                  exact takeWhile_ws_cons_nonws e zs2 hwse
              rw [hD1]
            · exfalso
              have hf4 : q4fire c cs = false := Bool.not_eq_true _ ▸ hcap
              have hTall : ∀ x ∈ cs.takeWhile jsWs, jsWs x = true :=
                fun x hx => mem_takeWhile_pred jsWs cs x hx
              have hsplit : cs = cs.takeWhile jsWs ++ cs.dropWhile jsWs :=
                (List.takeWhile_append_dropWhile jsWs cs).symm
              have hu : ∀ e v, cs.dropWhile jsWs = e :: v → jsWs e = false :=
                fun e v hev => dropWhile_head_false jsWs cs e v hev
              obtain ⟨R2, hA, hB⟩ := p5_ws_append (cs.takeWhile jsWs).length
                (cs.takeWhile jsWs) (cs.dropWhile jsWs) le_rfl hTall hu
              have hp5 : p5 cs = R2 ++ p5 (cs.dropWhile jsWs) := by
                conv_lhs => rw [hsplit]
                exact hB
              cases hD : cs.dropWhile jsWs with
              | nil =>
                have : q4fire c (p5 cs) = false := by
                  refine q4fire_false_of_drop c _ ?_
                  intro e v hev
                  rw [hp5, hD, dropWhile_append_all jsWs R2 _ hA] at hev
                  exact absurd hev (by simp [p5_nil])
                rw [this] at hff
                exact absurd hff (by simp)
              | cons d v =>
                have hUd : isUpperAZ d = false :=
                  q4fire_cap_false c cs hf4 hse w ws1 hTW d v hD
                have hwsd : jsWs d = false := dropWhile_head_false jsWs cs d v hD
                have hhead : (p5 (cs.dropWhile jsWs)).head? = some d := by
                  rw [p5_head, hD]
                  rfl
                obtain ⟨zs, hzs⟩ := exists_cons_of_head _ d hhead
                have : q4fire c (p5 cs) = false := by
                  refine q4fire_false_of_drop c _ ?_
                  intro e v2 hev
                  rw [hp5, hzs, dropWhile_append_all jsWs R2 _ hA,
                    List.dropWhile_cons, if_neg (by simp [hwsd])] at hev
                  obtain ⟨he, _⟩ := List.cons.injEq .. ▸ hev
                  rw [he] at hUd
                  exact hUd
                rw [this] at hff
                exact absurd hff (by simp)
        · rw [q4fire_false_of_not_sentEnd c (p5 cs) (Bool.not_eq_true _ ▸ hse)] at hff
          exact absurd hff (by simp)

/-- Trimming preserves the sentence-break invariant. -/
theorem q4ok_trim (t : Str) (h : q4ok t = true) : q4ok (jsTrim t) = true := by
  unfold jsTrim
  have h1 : q4ok (t.dropWhile jsWs) = true :=
    q4ok_suffix _ t (List.dropWhile_suffix jsWs) h
  obtain ⟨w, hw⟩ := List.rdropWhile_prefix jsWs (t.dropWhile jsWs)
  refine q4ok_append_left _ w ?_
  rw [hw]
  exact h1

/-- Trimming preserves the blank-line invariant. -/
theorem noTriple_trim (t : Str) (h : noTriple t = true) :
    noTriple (jsTrim t) = true := by
  unfold jsTrim
  have h1 : noTriple (t.dropWhile jsWs) = true :=
    noTriple_suffix _ t (List.dropWhile_suffix jsWs) h
  obtain ⟨w, hw⟩ := List.rdropWhile_prefix jsWs (t.dropWhile jsWs)
  refine noTriple_append_left _ w ?_
  rw [hw]
  exact h1

/-- Trimming only removes characters. -/
theorem jsTrim_subset (t : Str) : ∀ x ∈ jsTrim t, x ∈ t := by
  intro x hx
  unfold jsTrim at hx
  exact (List.dropWhile_suffix jsWs).sublist.subset
    ((List.rdropWhile_prefix jsWs (t.dropWhile jsWs)).sublist.subset hx)

/-- The sentence-break pass only adds newlines to the character set. -/
theorem p4_subset (t : Str) : ∀ x ∈ p4 t, x ∈ t ∨ x = '\n' := by
  intro x hx
  refine scan_mem p4Step p4Step_bound ?_ t x hx
  intro c cs out rest h
  unfold p4Step at h
  split at h
  · obtain ⟨h1, h2⟩ := Prod.mk.injEq .. ▸ Option.some.inj h
    subst h1
    subst h2
    refine ⟨?_, List.dropWhile_suffix jsWs⟩
    intro y hy
    rcases List.mem_cons.mp hy with rfl | hy2
    · exact Or.inl rfl
    · exact Or.inr (by simpa using hy2)
  · exact absurd h (by simp)

/-- The blank-line pass only adds newlines to the character set. -/
theorem p5_subset (t : Str) : ∀ x ∈ p5 t, x ∈ t ∨ x = '\n' := by
  intro x hx
  refine scan_mem p5Step p5Step_bound ?_ t x hx
  intro c cs out rest h
  unfold p5Step at h
  split at h
  · obtain ⟨h1, h2⟩ := Prod.mk.injEq .. ▸ Option.some.inj h
    subst h1
    subst h2
    refine ⟨?_, List.dropWhile_suffix _⟩
    intro y hy
    rcases List.mem_cons.mp hy with rfl | hy2
    · exact Or.inr rfl
    · exact Or.inr (by simpa using hy2)
  · exact absurd h (by simp)

/-- Text without carriage returns is a fixed point of the line-break pass. -/
theorem p1_id (t : Str) (h : ∀ c ∈ t, (c == '\r') = false) : p1 t = t := by
  induction t with
  | nil => rfl
  | cons c cs ih =>
    have hstep : p1Step c cs = none := by
      simp [p1Step, h c (List.mem_cons_self c cs)]
    rw [show p1 (c :: cs) = c :: p1 cs from scan_cons_none p1Step c cs hstep,
      ih (fun x hx => h x (List.mem_cons_of_mem c hx))]

/-- Text without bullet markers is a fixed point of the bullet pass. -/
theorem p2_id (t : Str) (h : ∀ c ∈ t, bulletChar c = false) : p2 t = t := by
  induction t with
  | nil => rfl
  | cons c cs ih =>
    have hstep : p2Step c cs = none := by
      by_cases hws : jsWs c = true
      · simp [p2Step, hws]
      · cases hdw : cs.dropWhile jsWs with
        | nil => simp [p2Step, hws, hdw]
        | cons b rest2 =>
          have hb : bulletChar b = false :=
            h b (List.mem_cons_of_mem c ((List.dropWhile_suffix jsWs).sublist.subset
              (hdw.symm ▸ List.mem_cons_self b rest2)))
          simp [p2Step, hws, hdw, hb]
    rw [show p2 (c :: cs) = c :: p2 cs from scan_cons_none p2Step c cs hstep,
      ih (fun x hx => h x (List.mem_cons_of_mem c hx))]

/-- Text without digits is a fixed point of the numbered-list pass. -/
theorem p3_id (t : Str) (h : ∀ c ∈ t, c.isDigit = false) : p3 t = t := by
  induction t with
  | nil => rfl
  | cons c cs ih =>
    have hstep : p3Step c cs = none := by
      have hTD : (cs.dropWhile jsWs).takeWhile Char.isDigit = [] := by
        refine takeWhile_nil_of_all Char.isDigit _ ?_
        intro x hx
        exact h x (List.mem_cons_of_mem c
          ((List.dropWhile_suffix jsWs).sublist.subset hx))
      by_cases hws : jsWs c = true
      · simp [p3Step, hws]
      · cases hdd : (cs.dropWhile jsWs).dropWhile Char.isDigit with
        | nil => simp [p3Step, hws, hdd]
        | cons d r2 => simp [p3Step, hws, hdd, hTD]
    rw [show p3 (c :: cs) = c :: p3 cs from scan_cons_none p3Step c cs hstep,
      ih (fun x hx => h x (List.mem_cons_of_mem c hx))]

/-- Claim C9, counterexample: the formatter is not idempotent.  On `"*** b"`
the first application rewrites the bullet match `"** "` (a star as `$1`, a
star as the marker) to `"*\n* "`, yielding `"**\n* b"`; on that output the
bullet rule matches again across the inserted newline (`'*'` then `\s*` eats
the newline, then `'*'` and a space), so a second application yields
`"*\n* * b"`. -/
theorem formatParagraphs_counterexample :
    formatParagraphs (formatParagraphs (str "*** b")) ≠ formatParagraphs (str "*** b") := by
  decide

/-- Claim C9, amended: paragraph formatting is idempotent on every input
containing no carriage return, no bullet marker (`*` or `•`), and no decimal
digit.  On such text the line-break, bullet and numbered-list passes are the
identity; the first application leaves every remaining sentence-break match
opportunity with a single-newline run and no triple newline anywhere, and the
second application therefore changes nothing. -/
theorem formatParagraphs_idem_amended (x : Str)
    (hcr : x.all (fun c => !(c == '\r')) = true)
    (hbul : x.all (fun c => !bulletChar c) = true)
    (hdig : x.all (fun c => !c.isDigit) = true) :
    formatParagraphs (formatParagraphs x) = formatParagraphs x := by
  have hcr2 : ∀ c ∈ x, (c == '\r') = false := by
    intro c hc
    have := List.all_eq_true.mp hcr c hc
    simpa using this
  have hbul2 : ∀ c ∈ x, bulletChar c = false := by
    intro c hc
    have := List.all_eq_true.mp hbul c hc
    simpa using this
  have hdig2 : ∀ c ∈ x, c.isDigit = false := by
    intro c hc
    have := List.all_eq_true.mp hdig c hc
    simpa using this
  by_cases hx : x = []
  · subst hx
    rfl
  · have hfx : formatParagraphs x = jsTrim (p5 (p4 x)) := by
      unfold formatParagraphs
      rw [if_neg hx, p1_id x hcr2, p2_id x hbul2, p3_id x hdig2]
    have hq : q4ok (jsTrim (p5 (p4 x))) = true :=
      q4ok_trim _ (p5_preserves_q4ok _ (p4_establishes_q4ok x))
    have hnt : noTriple (jsTrim (p5 (p4 x))) = true :=
      noTriple_trim _ (p5_establishes_noTriple (p4 x))
    have hsub : ∀ c ∈ jsTrim (p5 (p4 x)), c ∈ x ∨ c = '\n' := by
      intro c hc
      have h1 : c ∈ p5 (p4 x) := jsTrim_subset _ c hc
      rcases p5_subset (p4 x) c h1 with h2 | h2
      · exact p4_subset x c h2
      · exact Or.inr h2
    have hcr3 : ∀ c ∈ jsTrim (p5 (p4 x)), (c == '\r') = false := by
      intro c hc
      rcases hsub c hc with h2 | rfl
      · exact hcr2 c h2
      · decide
    have hbul3 : ∀ c ∈ jsTrim (p5 (p4 x)), bulletChar c = false := by
      intro c hc
      rcases hsub c hc with h2 | rfl
      · exact hbul2 c h2
      · decide
    have hdig3 : ∀ c ∈ jsTrim (p5 (p4 x)), c.isDigit = false := by
      intro c hc
      rcases hsub c hc with h2 | rfl
      · exact hdig2 c h2
      · decide
    rw [hfx]
    by_cases hy : jsTrim (p5 (p4 x)) = []
    · rw [hy]
      rfl
    · unfold formatParagraphs
      rw [if_neg hy, p1_id _ hcr3, p2_id _ hbul3, p3_id _ hdig3,
        p4_id _ hq, p5_id _ hnt]
      exact jsTrim_idem _

/-- Witness for the amended C9 theorem at a concrete input on which the
formatter is not the identity (it inserts a sentence break). -/
theorem formatParagraphs_idem_amended_witness :
    ((str "Hi!  The end.").all (fun c => !(c == '\r')) = true) ∧
    ((str "Hi!  The end.").all (fun c => !bulletChar c) = true) ∧
    ((str "Hi!  The end.").all (fun c => !c.isDigit) = true) ∧
    formatParagraphs (formatParagraphs (str "Hi!  The end.")) =
      formatParagraphs (str "Hi!  The end.") :=
  ⟨by decide, by decide, by decide,
    formatParagraphs_idem_amended (str "Hi!  The end.") (by decide) (by decide)
      (by decide)⟩

end AgentK
